import Mathlib

/-!
Formal model of the speakright backend pipeline
(`llm_call.py`, `game_backend.py`, `tts_helpers.py`):
text normalization, card-usage detection, JSON extraction from LLM
output, the turn orchestrator with its mock fallback, and the TTS
chunk synthesizer.  Remote services (the LLM and Azure TTS) are
modelled as oracles supplying either a response or an exception.
-/

/-! ## Characters and small utilities

Named characters are introduced through `Char.ofNat` so the source of
each code point is explicit.
-/

def bq : Char := Char.ofNat 96

def lbrace : Char := Char.ofNat 123

def rbrace : Char := Char.ofNat 125

def lbrack : Char := Char.ofNat 91

def rbrack : Char := Char.ofNat 93

def quoteChar : Char := Char.ofNat 34

def bslash : Char := Char.ofNat 92

/-- Whitespace characters recognised by Python's `str.strip`, `str.split`
and the `\s` regex class (ASCII fragment). -/
def wsChars : List Char := [' ', Char.ofNat 9, Char.ofNat 10, Char.ofNat 13, Char.ofNat 11, Char.ofNat 12]

def isWsChar (c : Char) : Bool := wsChars.contains c

/-- The punctuation class removed by `_normalize_for_matching`
(the regex `[.,;:!?¿¡\-_….]+` in `llm_call.py`). -/
def punctChars : List Char := ['.', ',', ';', ':', '!', '?', '¿', '¡', '-', '_', '…']

def isPunctChar (c : Char) : Bool := punctChars.contains c

/-- A finite character substitution: the first matching pair wins,
characters outside the table are unchanged. -/
def tableMap (P : List (Char × Char)) (c : Char) : Char :=
  ((P.find? (fun p => p.1 = c)).map Prod.snd).getD c

/-- Accent stripping table of `_strip_accents` in `llm_call.py`: the
explicit `ñ`/`Ñ` replacement followed by NFD decomposition with
combining marks dropped, tabulated on the Latin letters the
application handles. -/
def accentPairs : List (Char × Char) :=
  [('á', 'a'), ('é', 'e'), ('í', 'i'), ('ó', 'o'), ('ú', 'u'), ('ü', 'u'),
   ('Á', 'A'), ('É', 'E'), ('Í', 'I'), ('Ó', 'O'), ('Ú', 'U'), ('Ü', 'U'),
   ('ñ', 'n'), ('Ñ', 'N'),
   ('à', 'a'), ('è', 'e'), ('ì', 'i'), ('ò', 'o'), ('ù', 'u')]

def stripAccentChar (c : Char) : Char := tableMap accentPairs c

/-- Lower-casing table modelling Python `str.lower` on the ASCII
letters plus the accented capitals of the application's languages. -/
def lowerPairs : List (Char × Char) :=
  [('A', 'a'), ('B', 'b'), ('C', 'c'), ('D', 'd'), ('E', 'e'), ('F', 'f'),
   ('G', 'g'), ('H', 'h'), ('I', 'i'), ('J', 'j'), ('K', 'k'), ('L', 'l'),
   ('M', 'm'), ('N', 'n'), ('O', 'o'), ('P', 'p'), ('Q', 'q'), ('R', 'r'),
   ('S', 's'), ('T', 't'), ('U', 'u'), ('V', 'v'), ('W', 'w'), ('X', 'x'),
   ('Y', 'y'), ('Z', 'z'),
   ('Á', 'á'), ('É', 'é'), ('Í', 'í'), ('Ó', 'ó'), ('Ú', 'ú'), ('Ü', 'ü'),
   ('Ñ', 'ñ')]

def pyLowerChar (c : Char) : Char := tableMap lowerPairs c

def pyLowerStr (s : String) : String := ⟨s.data.map pyLowerChar⟩

/-- `re.sub(r'\s+', ' ', text)`: each maximal whitespace run becomes a
single space.  The boolean argument records whether the previous
character belonged to a whitespace run. -/
def collapseWsAux : Bool → List Char → List Char
  | _, [] => []
  | prevWs, c :: cs =>
    if isWsChar c then
      if prevWs then collapseWsAux true cs
      else ' ' :: collapseWsAux true cs
    else c :: collapseWsAux false cs

def collapseWs (cs : List Char) : List Char := collapseWsAux false cs

/-- Python `str.strip()`: drop whitespace from both ends. -/
def pyStrip (cs : List Char) : List Char :=
  (((cs.dropWhile isWsChar).reverse.dropWhile isWsChar)).reverse

def pyStripStr (s : String) : String := ⟨pyStrip s.data⟩

/-- `_strip_accents` from `llm_call.py`. -/
def stripAccents (s : String) : String :=
  if s.data = [] then "" else ⟨s.data.map stripAccentChar⟩

/-- `_normalize_for_matching` from `llm_call.py`: strip accents, delete
the punctuation class, collapse whitespace, strip the ends,
lower-case. -/
def normalizeForMatching (s : String) : String :=
  if s.data = [] then ""
  else ⟨(pyStrip (collapseWs (((s.data.map stripAccentChar).filter (fun c => !isPunctChar c))))).map pyLowerChar⟩

/-! ## Cards and the card-usage detectors -/

/-- The `Card` pydantic model of `game_backend.py` (the `image_url`
field plays no role in any operation modelled here). -/
structure Card where
  id : String
  type : String
  value : String
  display_text : Option String
  points : Option Int
deriving DecidableEq, Repr

/-- `c.value or c.display_text or ''`: Python `or` picks the first
truthy (non-empty) alternative. -/
def cardText (c : Card) : String :=
  if c.value ≠ "" then c.value
  else match c.display_text with
    | some d => d
    | none => ""

/-- Fueled longest-common-subsequence length; the fuel is only there
to make the recursion structural, `|a| + |b|` is always enough. -/
def lcsLenF : Nat → List Char → List Char → Nat
  | 0, _, _ => 0
  | _ + 1, [], _ => 0
  | _ + 1, _ :: _, [] => 0
  | f + 1, a :: as, b :: bs =>
    if a = b then 1 + lcsLenF f as bs
    else max (lcsLenF f (a :: as) bs) (lcsLenF f as (b :: bs))

/-- Longest common subsequence length, the similarity kernel used to
model the `rapidfuzz` ratio (`ratio = 200·lcs/(|a|+|b|)`) and as a
model for `difflib.SequenceMatcher` matched characters. -/
def lcsLen (a b : List Char) : Nat := lcsLenF (a.length + b.length) a b

/-- All contiguous substrings of a list. -/
def contiguousSubs (l : List Char) : List (List Char) :=
  l.tails.flatMap List.inits

/-- `fuzzy_card_detect` from `game_backend.py`, parameterised by the
fuzzy hit test used when the literal substring check fails (the code
uses `rapidfuzz` when importable and `difflib` otherwise).  The
trailing `list(set(used))` of the source only deduplicates with
unspecified order, so the theorems below speak of this list's
membership and `toFinset`. -/
def fuzzyCardDetect (fuzzyHit : String → String → Bool) (transcript : String) (cards : List Card) : List String :=
  let lower := pyLowerStr transcript
  cards.foldr
    (fun c used =>
      let target := pyLowerStr (cardText c)
      if target = "" then used
      else if target.data <:+: lower.data then c.id :: used
      else if fuzzyHit target lower then c.id :: used
      else used)
    []

/-- The `rapidfuzz` branch: `fuzz.partial_ratio(target, lower) >= 75`.
Modelled as: some contiguous window `w` of the longer string reaches a
simple ratio `200·lcs/(|s|+|w|) >= 75` against the shorter string `s`,
the comparison written cross-multiplied so it is exact; an empty
argument scores `0` as in `rapidfuzz`. -/
def rapidfuzzHit (target lower : String) : Bool :=
  if target.data.isEmpty || lower.data.isEmpty then false
  else
    let s := if target.data.length ≤ lower.data.length then target.data else lower.data
    let l := if target.data.length ≤ lower.data.length then lower.data else target.data
    (contiguousSubs l).any (fun w => 75 * (s.length + w.length) ≤ 200 * lcsLen s w)

/-- The `difflib` branch: `SequenceMatcher(a=target, b=lower).ratio() > 0.7`
with matched characters modelled by the longest common subsequence and
the comparison `2·M/(|a|+|b|) > 7/10` written cross-multiplied. -/
def difflibHit (target lower : String) : Bool :=
  7 * (target.data.length + lower.data.length) < 20 * lcsLen target.data lower.data

def fuzzyCardDetectRapid (transcript : String) (cards : List Card) : List String :=
  fuzzyCardDetect rapidfuzzHit transcript cards

def fuzzyCardDetectDifflib (transcript : String) (cards : List Card) : List String :=
  fuzzyCardDetect difflibHit transcript cards

/-- The card detection embedded in `_mock_response` of `llm_call.py`:
a card counts as used when its normalized text is a non-empty
substring of the normalized transcript. -/
def mockUsedIds (transcript : String) (cards : List Card) : List String :=
  cards.foldr
    (fun c used =>
      let nv := normalizeForMatching (cardText c)
      if nv ≠ "" ∧ nv.data <:+: (normalizeForMatching transcript).data then c.id :: used
      else used)
    []

/-! ## JSON values

A model of the JSON fragment exchanged with the LLM: numerals are
integers (the schema of `_make_prompt` uses fractional confidences
only inside advisory examples; the extraction claims are about
objects, strings, lists and integers).  `printJson` models
`json.dumps` with its default separators and `ensure_ascii=False`;
`loadsL` models `json.loads` on this fragment.
-/

inductive Json where
  | null : Json
  | bool (b : Bool) : Json
  | num (n : Int) : Json
  | str (s : String) : Json
  | arr (xs : List Json) : Json
  | obj (kvs : List (String × Json)) : Json
deriving Repr

def digitChar (d : Nat) : Char := Char.ofNat (48 + d)

/-- Fueled decimal printer for `Nat`; fuel `n + 1` is always enough. -/
def natDigitsF : Nat → Nat → List Char
  | 0, _ => []
  | f + 1, n =>
    if n < 10 then [digitChar n]
    else natDigitsF f (n / 10) ++ [digitChar (n % 10)]

def natDigits (n : Nat) : List Char := natDigitsF (n + 1) n

def intPrint (n : Int) : List Char :=
  if n < 0 then '-' :: natDigits (-n).toNat else natDigits n.toNat

def hexDigitChar (d : Nat) : Char :=
  if d < 10 then Char.ofNat (48 + d) else Char.ofNat (87 + d)

/-- The escape table of `json.dumps`: quote, backslash and the short
control escapes, then `\u00xx` for the remaining control characters;
all other characters are emitted raw (`ensure_ascii=False`). -/
def escapeChar (c : Char) : List Char :=
  if c = bslash then [bslash, bslash]
  else if c = quoteChar then [bslash, quoteChar]
  else if c = Char.ofNat 8 then [bslash, 'b']
  else if c = Char.ofNat 9 then [bslash, 't']
  else if c = Char.ofNat 10 then [bslash, 'n']
  else if c = Char.ofNat 12 then [bslash, 'f']
  else if c = Char.ofNat 13 then [bslash, 'r']
  else if c.toNat < 32 then
    [bslash, 'u', '0', '0', hexDigitChar (c.toNat / 16), hexDigitChar (c.toNat % 16)]
  else [c]

def escapeString (s : String) : List Char := s.data.flatMap escapeChar

def printString (s : String) : List Char := quoteChar :: escapeString s ++ [quoteChar]

mutual

def printJson : Json → List Char
  | .null => ['n', 'u', 'l', 'l']
  | .bool false => ['f', 'a', 'l', 's', 'e']
  | .bool true => ['t', 'r', 'u', 'e']
  | .num n => intPrint n
  | .str s => printString s
  | .arr [] => [lbrack, rbrack]
  | .arr (v :: vs) => lbrack :: (printJson v ++ printElemsRest vs ++ [rbrack])
  | .obj [] => [lbrace, rbrace]
  | .obj (kv :: kvs) => lbrace :: (printMember kv ++ printMembersRest kvs ++ [rbrace])

def printElemsRest : List Json → List Char
  | [] => []
  | v :: vs => ',' :: ' ' :: (printJson v ++ printElemsRest vs)

def printMember : String × Json → List Char
  | (k, v) => printString k ++ ':' :: ' ' :: printJson v

def printMembersRest : List (String × Json) → List Char
  | [] => []
  | kv :: kvs => ',' :: ' ' :: (printMember kv ++ printMembersRest kvs)

end

def serializeJson (j : Json) : String := ⟨printJson j⟩

/-! ### The parser (model of `json.loads`) -/

def isDigitChar (c : Char) : Bool := 48 ≤ c.toNat && c.toNat ≤ 57

/-- JSON grammar whitespace (as skipped by `json.loads`). -/
def isJsonWs (c : Char) : Bool :=
  c.toNat = 32 || c.toNat = 9 || c.toNat = 10 || c.toNat = 13

def skipWs (cs : List Char) : List Char := cs.dropWhile isJsonWs

def parseDigitsAux (acc : Nat) : List Char → Nat × List Char
  | [] => (acc, [])
  | c :: cs =>
    if isDigitChar c then parseDigitsAux (acc * 10 + (c.toNat - 48)) cs
    else (acc, c :: cs)

/-- A JSON integer numeral after the optional sign: `0`, or a nonzero
digit followed by more digits (JSON forbids leading zeros). -/
def parseNumBody : List Char → Option (Nat × List Char)
  | [] => none
  | c :: cs =>
    if c = '0' then some (0, cs)
    else if isDigitChar c then some (parseDigitsAux (c.toNat - 48) cs)
    else none

def hexVal (c : Char) : Option Nat :=
  if 48 ≤ c.toNat ∧ c.toNat ≤ 57 then some (c.toNat - 48)
  else if 97 ≤ c.toNat ∧ c.toNat ≤ 102 then some (c.toNat - 87)
  else if 65 ≤ c.toNat ∧ c.toNat ≤ 70 then some (c.toNat - 55)
  else none

/-- The body of a JSON string literal, after the opening quote; the
accumulator holds the decoded characters in reverse. -/
def parseStringBody : List Char → List Char → Option (String × List Char)
  | _, [] => none
  | acc, c :: cs =>
    if c = quoteChar then some (⟨acc.reverse⟩, cs)
    else if c = bslash then
      match cs with
      | [] => none
      | e :: cs2 =>
        if e = quoteChar then parseStringBody (quoteChar :: acc) cs2
        else if e = bslash then parseStringBody (bslash :: acc) cs2
        else if e = '/' then parseStringBody ('/' :: acc) cs2
        else if e = 'b' then parseStringBody (Char.ofNat 8 :: acc) cs2
        else if e = 'f' then parseStringBody (Char.ofNat 12 :: acc) cs2
        else if e = 'n' then parseStringBody (Char.ofNat 10 :: acc) cs2
        else if e = 'r' then parseStringBody (Char.ofNat 13 :: acc) cs2
        else if e = 't' then parseStringBody (Char.ofNat 9 :: acc) cs2
        else if e = 'u' then
          match cs2 with
          | h1 :: h2 :: h3 :: h4 :: cs3 =>
            match hexVal h1, hexVal h2, hexVal h3, hexVal h4 with
            | some a, some b, some c', some d =>
              parseStringBody (Char.ofNat (4096 * a + 256 * b + 16 * c' + d) :: acc) cs3
            | _, _, _, _ => none
          | _ => none
        else none
    else if c.toNat < 32 then none
    else parseStringBody (c :: acc) cs

mutual

def parseValue : Nat → List Char → Option (Json × List Char)
  | 0, _ => none
  | f + 1, cs =>
    match cs with
    | [] => none
    | c :: rest =>
      if c = quoteChar then (parseStringBody [] rest).map (fun p => (Json.str p.1, p.2))
      else if c = lbrace then
        match skipWs rest with
        | [] => none
        | d :: rest1 =>
          if d = rbrace then some (Json.obj [], rest1)
          else (parseMembers f (d :: rest1)).map (fun p => (Json.obj p.1, p.2))
      else if c = lbrack then
        match skipWs rest with
        | [] => none
        | d :: rest1 =>
          if d = rbrack then some (Json.arr [], rest1)
          else (parseElems f (d :: rest1)).map (fun p => (Json.arr p.1, p.2))
      else if c = '-' then (parseNumBody rest).map (fun p => (Json.num (-(p.1 : Int)), p.2))
      else if isDigitChar c then (parseNumBody (c :: rest)).map (fun p => (Json.num (p.1 : Int), p.2))
      else if c = 'n' then
        match rest with
        | 'u' :: 'l' :: 'l' :: r => some (Json.null, r)
        | _ => none
      else if c = 't' then
        match rest with
        | 'r' :: 'u' :: 'e' :: r => some (Json.bool true, r)
        | _ => none
      else if c = 'f' then
        match rest with
        | 'a' :: 'l' :: 's' :: 'e' :: r => some (Json.bool false, r)
        | _ => none
      else none

def parseElems : Nat → List Char → Option (List Json × List Char)
  | 0, _ => none
  | f + 1, cs =>
    match parseValue f cs with
    | none => none
    | some (v, rest) =>
      match skipWs rest with
      | [] => none
      | d :: rest1 =>
        if d = ',' then
          match parseElems f (skipWs rest1) with
          | none => none
          | some (vs, rest2) => some (v :: vs, rest2)
        else if d = rbrack then some ([v], rest1)
        else none

def parseMembers : Nat → List Char → Option (List (String × Json) × List Char)
  | 0, _ => none
  | f + 1, cs =>
    match cs with
    | [] => none
    | c :: rest =>
      if c = quoteChar then
        match parseStringBody [] rest with
        | none => none
        | some (k, rest1) =>
          match skipWs rest1 with
          | [] => none
          | d0 :: rest2 =>
            if d0 = ':' then
              match parseValue f (skipWs rest2) with
              | none => none
              | some (v, rest3) =>
                match skipWs rest3 with
                | [] => none
                | d :: rest4 =>
                  if d = ',' then
                    match parseMembers f (skipWs rest4) with
                    | none => none
                    | some (kvs, rest6) => some ((k, v) :: kvs, rest6)
                  else if d = rbrace then some ([(k, v)], rest4)
                  else none
            else none
      else none

end

/-- `json.loads`: parse one value and require only whitespace after it. -/
def loadsL (cs : List Char) : Option Json :=
  match parseValue (cs.length + 1) (skipWs cs) with
  | some (v, rest) => if skipWs rest = [] then some v else none
  | none => none

/-! ### `_extract_json` from `llm_call.py` -/

/-- Index of the first occurrence of a character. -/
def findIdxFrom (c : Char) : List Char → Option Nat
  | [] => none
  | x :: xs => if x = c then some 0 else (findIdxFrom c xs).map (· + 1)

/-- Python `str.find` for a single character: index or `-1`. -/
def pyFind (c : Char) (cs : List Char) : Int :=
  match findIdxFrom c cs with
  | some i => (i : Int)
  | none => -1

/-- Python `str.rfind` for a single character: last index or `-1`. -/
def pyRfind (c : Char) (cs : List Char) : Int :=
  match findIdxFrom c cs.reverse with
  | some i => (cs.length : Int) - 1 - i
  | none => -1

/-- `re.sub(r"```(?:json)?", "", text, flags=re.IGNORECASE)`: delete
each triple backtick together with an optional case-insensitive
`json` tag, scanning left to right without overlap. -/
def fenceAt (cs : List Char) : Bool := cs.take 3 = [bq, bq, bq]

def jsonTagAt (cs : List Char) : Bool :=
  (cs.take 4).map pyLowerChar = ['j', 's', 'o', 'n']

def stripFencesF : Nat → List Char → List Char
  | 0, cs => cs
  | _ + 1, [] => []
  | f + 1, c1 :: rest1 =>
    if fenceAt (c1 :: rest1) then
      if jsonTagAt (rest1.drop 2) then stripFencesF f (rest1.drop 6)
      else stripFencesF f (rest1.drop 2)
    else c1 :: stripFencesF f rest1

def stripFences (cs : List Char) : List Char := stripFencesF cs.length cs

/-- `_extract_json` from `llm_call.py`: strip code fences and outer
whitespace, slice from the first `{` to the last `}`, parse the slice.
`none` models the raised `ValueError`/`json.JSONDecodeError`. -/
def extractJson (text : String) : Option Json :=
  let t2 := pyStrip (stripFences text.data)
  let start := pyFind lbrace t2
  let stop := pyRfind rbrace t2
  if start = -1 ∨ stop = -1 ∨ stop < start then none
  else loadsL ((t2.drop start.toNat).take (stop.toNat + 1 - start.toNat))

/-! ## Json field access with Python `dict` semantics -/

def jget (j : Json) (k : String) : Option Json :=
  match j with
  | .obj kvs => (kvs.find? (fun p => p.1 = k)).map Prod.snd
  | _ => none

/-- `dict.get(k, alt)`. -/
def jgetD (j : Json) (k : String) (alt : Json) : Json := (jget j k).getD alt

/-- `dict.setdefault(k, v)`: insert at the end when the key is absent. -/
def jsetdefault (j : Json) (k : String) (v : Json) : Json :=
  match j with
  | .obj kvs => if (jget j k).isSome then j else .obj (kvs ++ [(k, v)])
  | _ => j

/-- Python truthiness of a JSON value. -/
def jTruthy : Json → Bool
  | .null => false
  | .bool b => b
  | .num n => !(n == 0)
  | .str s => !(s == "")
  | .arr xs => !xs.isEmpty
  | .obj kvs => !kvs.isEmpty

/-- `d.get(k) or alt`. -/
def pyGetOr (j : Json) (k : String) (alt : Json) : Json :=
  let v := (jget j k).getD Json.null
  if jTruthy v then v else alt

/-! ## The LLM turn orchestrator (`llm_call.py`) -/

structure LangSpec where
  code : String
  name : String
deriving DecidableEq, Repr

/-- The locale tag choice of `_mock_response` and `api_turn`:
`learning.code.startswith` on `es` / `id`. -/
def langTagOf (learning : LangSpec) : String :=
  if ['e', 's'].isPrefixOf learning.code.data then "es-MX"
  else if ['i', 'd'].isPrefixOf learning.code.data then "id-ID"
  else "en-US"

def mockChunk1 (transcript : String) (learning : LangSpec) : Json :=
  Json.obj [("text", Json.str transcript), ("lang", Json.str (langTagOf learning)),
            ("purpose", Json.str "corrected_sentence")]

def mockChunk2 (transcript : String) : Json :=
  Json.obj [("text", Json.str ("(mock) " ++ transcript)), ("lang", Json.str "en-US"),
            ("purpose", Json.str "native_translation")]

/-- `_mock_response` from `llm_call.py` (the `fluent` argument is
accepted and ignored there). -/
def mockResponse (transcript : String) (cards : List Card) (fluent learning : LangSpec) : Json :=
  Json.obj
    [("corrected_sentence", Json.str transcript),
     ("native_translation", Json.str ("(mock) " ++ transcript)),
     ("used_card_ids", Json.arr ((mockUsedIds transcript cards).map Json.str)),
     ("asr_fixes", Json.arr []),
     ("brief_explanation_native", Json.str "(mock) small wording adjustments."),
     ("notes", Json.str ""),
     ("audio_chunks", Json.arr [mockChunk1 transcript learning, mockChunk2 transcript])]

/-- The `parsed.setdefault(...)` chain of `call_llm_for_turn`. -/
def applyTurnDefaults (j : Json) : Json :=
  jsetdefault (jsetdefault (jsetdefault (jsetdefault (jsetdefault (jsetdefault (jsetdefault j
    "corrected_sentence" (Json.str ""))
    "native_translation" (Json.str ""))
    "used_card_ids" (Json.arr []))
    "asr_fixes" (Json.arr []))
    "brief_explanation_native" (Json.str ""))
    "notes" (Json.str ""))
    "audio_chunks" (Json.arr [])

/-- Environment and remote-service oracle for `call_llm_for_turn`:
`credsAvailable` is the configured-API-key-and-importable-client test
of `_init_client`; `rawText` is the text recovered from a remote
response, `none` standing for an exception (network failure or
timeout) during the call. -/
structure LlmEnv where
  mockMode : Bool
  credsAvailable : Bool
  rawText : Option String

/-- `_init_client`: `MOCK_MODE` short-circuits to no client. -/
def llmClientAvailable (env : LlmEnv) : Bool := !env.mockMode && env.credsAvailable

/-- `call_llm_for_turn`: the second component records whether a remote
call was issued. -/
def callLlmForTurn (env : LlmEnv) (transcript : String) (cards : List Card)
    (fluent learning : LangSpec) : Json × Bool :=
  if llmClientAvailable env then
    match env.rawText with
    | none => (mockResponse transcript cards fluent learning, true)
    | some raw =>
      match extractJson raw with
      | none => (mockResponse transcript cards fluent learning, true)
      | some parsed => (applyTurnDefaults parsed, true)
  else (mockResponse transcript cards fluent learning, false)

/-! ## Environment parsing and the TTS chunk synthesizer -/

/-- `parse_bool_env` from `game_backend.py`, applied to the raw
environment value (`none` when the variable is unset). -/
def parseBoolEnv (val : Option String) (dflt : Bool) : Bool :=
  match val with
  | none => dflt
  | some v =>
    let s := pyLowerStr (pyStripStr v)
    (s == "1") || (s == "true") || (s == "yes") || (s == "on")

/-- `MOCK_MODE = os.getenv("MOCK_MODE", "1") == "1"` from `llm_call.py`. -/
def llmMockMode (val : Option String) : Bool := val.getD "1" == "1"

/-- `MOCK_MODE = os.getenv("MOCK_MODE", "0") == "1"` from `tts_helpers.py`. -/
def ttsMockMode (val : Option String) : Bool := val.getD "0" == "1"

/-- The WAV payload written by `generate_silent_wav`: 16-bit mono PCM,
`int(duration_secs * sample_rate)` zero frames (durations are
non-negative, so `int` truncation is `floor`; products of quarters
with these magnitudes are exact in binary floating point, so rational
arithmetic is faithful). -/
structure WavData where
  sampleRate : Nat
  frames : Nat
deriving DecidableEq, Repr

def generateSilentWav (durationSecs : ℚ) (sampleRate : Nat) : WavData :=
  ⟨sampleRate, (⌊durationSecs * sampleRate⌋).toNat⟩

/-- `len(str(text).split())`: number of maximal non-whitespace runs;
the boolean records whether the scan is inside a word. -/
def wordCountAux : Bool → List Char → Nat
  | _, [] => 0
  | inWord, c :: cs =>
    if isWsChar c then wordCountAux false cs
    else (if inWord then 0 else 1) + wordCountAux true cs

def wordCount (s : String) : Nat := wordCountAux false s.data

/-- The fallback silence of `tts_bytes_for_chunk`:
`min(4.0, 0.25 * max(1, len(text.split())))` seconds at 22050 Hz. -/
def silenceFor (text : String) : WavData :=
  generateSilentWav (min 4 ((1 : ℚ) / 4 * (max 1 (wordCount text) : Nat))) 22050

inductive AudioBytes where
  | raw (bytes : List Nat)
  | silent (w : WavData)
deriving DecidableEq, Repr

/-- Environment and oracle for `tts_bytes_for_chunk`: `testAudio` is a
readable bundled sample file, `azureKey`/`azureRegion` model configured
(non-empty) credentials, and `azureResult` is the remote TTS response
(`none` standing for an exception or a non-200 status, which
`azure_tts_bytes_real` raises on). -/
structure TtsEnv where
  mockMode : Bool
  testAudio : Option (List Nat)
  azureKey : Option String
  azureRegion : Option String
  azureResult : Option (List Nat)

/-- `tts_bytes_for_chunk` from `tts_helpers.py`. -/
def ttsBytesForChunk (env : TtsEnv) (text langTag : String) : AudioBytes :=
  if env.mockMode then
    match env.testAudio with
    | some b => .raw b
    | none => .silent (silenceFor text)
  else
    match env.azureKey, env.azureRegion with
    | some _, some _ =>
      match env.azureResult with
      | some b => .raw b
      | none => .silent (silenceFor text)
    | _, _ => .silent (silenceFor text)

/-! ## The `/api/game/turn` endpoint (`game_backend.py`) -/

structure TurnReq where
  session_id : Option String
  story_title : String
  active_cards : List Card
  transcript : String
  fluent : Option LangSpec
  learning : Option LangSpec

/-- The internal `audio_chunks` normalization of `api_turn`: an LLM
value that is a non-empty list is kept; anything else (absent, empty,
or not a list) is replaced with the default two-chunk sequence. -/
def apiAudioChunks (llmOut : Json) (corrected native : Json) (transcript : String)
    (learning : LangSpec) : List Json :=
  match jget llmOut "audio_chunks" with
  | some (Json.arr (c :: cs)) => c :: cs
  | _ =>
    [Json.obj [("text", if jTruthy corrected then corrected else Json.str transcript),
               ("lang", Json.str (langTagOf learning)),
               ("purpose", Json.str "corrected_sentence")],
     Json.obj [("text", native), ("lang", Json.str "en-US"),
               ("purpose", Json.str "native_translation")]]

structure ApiResp where
  corrected_sentence : Json
  native_translation : Json
  used_card_ids : Json
  audio_chunks : List Json
deriving Repr

/-- The LLM output visible to `api_turn`: `call_llm_for_turn` applied
to the stripped transcript and the request's language pair. -/
def apiLlmOut (env : LlmEnv) (req : TurnReq) : Json :=
  (callLlmForTurn env (pyStripStr req.transcript) req.active_cards
    (req.fluent.getD ⟨"en", "English"⟩) (req.learning.getD ⟨"es", "Spanish"⟩)).1

/-- `api_turn` from `game_backend.py`, up to the TTS fan-out: input
validation, the LLM call, and the response-field assembly.  `none`
models the 400 response for a blank transcript. -/
def apiTurn (env : LlmEnv) (req : TurnReq) : Option ApiResp :=
  let transcript := pyStripStr req.transcript
  if transcript = "" then none
  else
    let learning := req.learning.getD ⟨"es", "Spanish"⟩
    let llmOut := apiLlmOut env req
    let corrected := pyGetOr llmOut "corrected_sentence" (Json.str transcript)
    let native := pyGetOr llmOut "native_translation"
      (pyGetOr llmOut "english" (Json.str ("(translation) " ++ transcript)))
    some
      { corrected_sentence := corrected
        native_translation := native
        used_card_ids := jgetD llmOut "used_card_ids" (jgetD llmOut "used_cards" (Json.arr []))
        audio_chunks := apiAudioChunks llmOut corrected native transcript learning }

/-! ## Views used by the claims -/

def usedIdsOf (j : Json) : List Json :=
  match jget j "used_card_ids" with
  | some (Json.arr xs) => xs
  | _ => []

def usedStrIds (j : Json) : List String :=
  (usedIdsOf j).filterMap (fun x => match x with | Json.str s => some s | _ => none)

def audioChunksOf (j : Json) : List Json :=
  match jget j "audio_chunks" with
  | some (Json.arr xs) => xs
  | _ => []

def chunkPurpose (j : Json) : Option String :=
  match jget j "purpose" with
  | some (Json.str s) => some s
  | _ => none

/-- The spec's ordering invariant on a chunk list: every
corrected-sentence chunk comes strictly before every
native-translation chunk. -/
def orderedChunks (l : List Json) : Prop :=
  ∀ i k : Fin l.length, chunkPurpose (l.get i) = some "corrected_sentence" →
    chunkPurpose (l.get k) = some "native_translation" → (i : Nat) < (k : Nat)

instance orderedChunksDec (l : List Json) : Decidable (orderedChunks l) := by
  unfold orderedChunks
  infer_instance

/-! ## Character-level lemmas -/

theorem tableMap_cases (P : List (Char × Char)) (c : Char) :
    tableMap P c = c ∨ (c, tableMap P c) ∈ P := by
  unfold tableMap
  cases h : P.find? (fun p => p.1 = c) with
  | none => left; rfl
  | some p =>
    right
    have h1 : p.1 = c := by simpa using List.find?_some h
    have h2 : p ∈ P := List.mem_of_find?_eq_some h
    simpa [← h1] using h2

theorem stripAccent_stripAccent (c : Char) :
    stripAccentChar (stripAccentChar c) = stripAccentChar c := by
  have himg : ∀ p ∈ accentPairs, stripAccentChar p.2 = p.2 := by decide
  rcases tableMap_cases accentPairs c with h | h
  · have h' : stripAccentChar c = c := h
    simp only [h']
  · exact himg _ h

theorem pyLower_pyLower (c : Char) :
    pyLowerChar (pyLowerChar c) = pyLowerChar c := by
  have himg : ∀ p ∈ lowerPairs, pyLowerChar p.2 = p.2 := by decide
  rcases tableMap_cases lowerPairs c with h | h
  · have h' : pyLowerChar c = c := h
    simp only [h']
  · exact himg _ h

theorem stripAccent_pyLower_stripAccent (c : Char) :
    stripAccentChar (pyLowerChar (stripAccentChar c)) = pyLowerChar (stripAccentChar c) := by
  have hfix : stripAccentChar (stripAccentChar c) = stripAccentChar c :=
    stripAccent_stripAccent c
  have hlow : ∀ q ∈ lowerPairs, stripAccentChar q.1 = q.1 → stripAccentChar q.2 = q.2 := by
    decide
  rcases tableMap_cases lowerPairs (stripAccentChar c) with h | h
  · have h' : pyLowerChar (stripAccentChar c) = stripAccentChar c := h
    rw [h']
    exact hfix
  · exact hlow _ h hfix

theorem isWs_pyLower (c : Char) : isWsChar (pyLowerChar c) = isWsChar c := by
  have hws : ∀ q ∈ lowerPairs, isWsChar q.1 = false ∧ isWsChar q.2 = false := by decide
  rcases tableMap_cases lowerPairs c with h | h
  · have h' : pyLowerChar c = c := h
    rw [h']
  · rw [show isWsChar (pyLowerChar c) = false from (hws _ h).2,
        show isWsChar c = false from (hws _ h).1]

theorem isPunct_pyLower (c : Char) (h : isPunctChar c = false) :
    isPunctChar (pyLowerChar c) = false := by
  have hp : ∀ q ∈ lowerPairs, isPunctChar q.2 = false := by decide
  rcases tableMap_cases lowerPairs c with h' | h'
  · have h'' : pyLowerChar c = c := h'
    rwa [h'']
  · exact hp _ h'

/-! ## Idempotence of the normalizer -/

/-- The adjacency constraint left behind by whitespace collapsing. -/
def noTwoWs (a b : Char) : Prop := ¬(isWsChar a = true ∧ isWsChar b = true)

theorem map_fix {f : Char → Char} : ∀ {l : List Char}, (∀ c ∈ l, f c = c) → l.map f = l
  | [], _ => rfl
  | c :: cs, h => by
    simp only [List.map_cons, h c (by simp)]
    rw [map_fix (fun d hd => h d (by simp [hd]))]

theorem collapseWsAux_nil (b : Bool) : collapseWsAux b [] = [] := rfl

theorem collapseWsAux_cons_ws_true {c : Char} (h : isWsChar c = true) (cs : List Char) :
    collapseWsAux true (c :: cs) = collapseWsAux true cs := by
  simp [collapseWsAux, h]

theorem collapseWsAux_cons_ws_false {c : Char} (h : isWsChar c = true) (cs : List Char) :
    collapseWsAux false (c :: cs) = ' ' :: collapseWsAux true cs := by
  simp [collapseWsAux, h]

theorem collapseWsAux_cons_not_ws {b : Bool} {c : Char} (h : isWsChar c = false) (cs : List Char) :
    collapseWsAux b (c :: cs) = c :: collapseWsAux false cs := by
  cases b <;> simp [collapseWsAux, h]

theorem collapseWsAux_mem {c : Char} {l : List Char} :
    ∀ {b : Bool}, c ∈ collapseWsAux b l → c = ' ' ∨ (c ∈ l ∧ isWsChar c = false) := by
  induction l with
  | nil => intro b h; rw [collapseWsAux_nil] at h; simp at h
  | cons d ds ih =>
    intro b h
    by_cases hd : isWsChar d
    · cases b with
      | true =>
        rw [collapseWsAux_cons_ws_true hd] at h
        rcases ih h with h' | h'
        · exact Or.inl h'
        · exact Or.inr ⟨by simp [h'.1], h'.2⟩
      | false =>
        rw [collapseWsAux_cons_ws_false hd] at h
        rcases List.mem_cons.1 h with h | h
        · exact Or.inl h
        · rcases ih h with h' | h'
          · exact Or.inl h'
          · exact Or.inr ⟨by simp [h'.1], h'.2⟩
    · rw [collapseWsAux_cons_not_ws (by simpa using hd)] at h
      rcases List.mem_cons.1 h with h | h
      · subst h; exact Or.inr ⟨by simp, by simpa using hd⟩
      · rcases ih h with h' | h'
        · exact Or.inl h'
        · exact Or.inr ⟨by simp [h'.1], h'.2⟩

theorem collapseWsAux_head_true {l : List Char} :
    ∀ {c : Char}, (collapseWsAux true l).head? = some c → isWsChar c = false := by
  induction l with
  | nil => intro c h; simp [collapseWsAux_nil] at h
  | cons d ds ih =>
    intro c h
    by_cases hd : isWsChar d
    · rw [collapseWsAux_cons_ws_true hd] at h
      exact ih h
    · rw [collapseWsAux_cons_not_ws (by simpa using hd)] at h
      simp at h
      subst h
      simpa using hd

theorem collapseWsAux_chain {l : List Char} :
    ∀ (b : Bool), List.Chain' noTwoWs (collapseWsAux b l) := by
  induction l with
  | nil => intro b; rw [collapseWsAux_nil]; simp
  | cons d ds ih =>
    intro b
    by_cases hd : isWsChar d
    · cases b with
      | true => rw [collapseWsAux_cons_ws_true hd]; exact ih true
      | false =>
        rw [collapseWsAux_cons_ws_false hd]
        rw [List.chain'_cons']
        refine ⟨?_, ih true⟩
        intro y hy
        have := collapseWsAux_head_true hy
        unfold noTwoWs
        simp [this]
    · rw [collapseWsAux_cons_not_ws (by simpa using hd)]
      rw [List.chain'_cons']
      refine ⟨?_, ih false⟩
      intro y hy
      unfold noTwoWs
      simp [hd]

theorem collapseWsAux_true_eq_false {l : List Char}
    (h : ∀ c, l.head? = some c → isWsChar c = false) :
    collapseWsAux true l = collapseWsAux false l := by
  cases l with
  | nil => rfl
  | cons d ds =>
    have hd := h d (by simp)
    rw [collapseWsAux_cons_not_ws hd, collapseWsAux_cons_not_ws hd]

theorem collapseWs_fix {l : List Char} (hws : ∀ c ∈ l, isWsChar c = true → c = ' ')
    (hch : List.Chain' noTwoWs l) : collapseWs l = l := by
  induction l with
  | nil => rfl
  | cons d ds ih =>
    by_cases hd : isWsChar d
    · have hd' : d = ' ' := hws d (by simp) hd
      have hhead : ∀ c, ds.head? = some c → isWsChar c = false := by
        intro c hc
        rcases List.chain'_cons'.1 hch with ⟨hpair, _⟩
        have hp := hpair c hc
        unfold noTwoWs at hp
        by_contra hcontra
        simp at hcontra
        exact hp ⟨hd, hcontra⟩
      show collapseWsAux false (d :: ds) = d :: ds
      rw [collapseWsAux_cons_ws_false hd, collapseWsAux_true_eq_false hhead]
      have ihds : collapseWsAux false ds = ds :=
        ih (fun c hc hwc => hws c (by simp [hc]) hwc) hch.tail
      rw [ihds, hd']
    · show collapseWsAux false (d :: ds) = d :: ds
      rw [collapseWsAux_cons_not_ws (by simpa using hd)]
      have ihds : collapseWsAux false ds = ds :=
        ih (fun c hc hwc => hws c (by simp [hc]) hwc) hch.tail
      rw [ihds]

theorem dropWhile_head {p : Char → Bool} :
    ∀ {l : List Char} {c : Char}, (l.dropWhile p).head? = some c → p c = false
  | [], c, h => by simp [List.dropWhile] at h
  | d :: ds, c, h => by
    by_cases hd : p d
    · rw [List.dropWhile_cons_of_pos hd] at h
      exact dropWhile_head h
    · rw [List.dropWhile_cons_of_neg hd] at h
      have hdc : d = c := by simpa using h
      subst hdc
      simpa using hd

theorem dropWhile_id_of_head {p : Char → Bool} {l : List Char}
    (h : ∀ c, l.head? = some c → p c = false) : l.dropWhile p = l := by
  cases l with
  | nil => rfl
  | cons d ds =>
    have := h d (by simp)
    simp [List.dropWhile_cons, this]

theorem pyStrip_fix {l : List Char}
    (h1 : ∀ c, l.head? = some c → isWsChar c = false)
    (h2 : ∀ c, l.reverse.head? = some c → isWsChar c = false) :
    pyStrip l = l := by
  unfold pyStrip
  rw [dropWhile_id_of_head h1, dropWhile_id_of_head h2, List.reverse_reverse]

theorem chain'_dropWhile {R : Char → Char → Prop} {p : Char → Bool} :
    ∀ {l : List Char}, List.Chain' R l → List.Chain' R (l.dropWhile p)
  | [], h => h
  | d :: ds, h => by
    by_cases hd : p d
    · rw [List.dropWhile_cons_of_pos hd]
      exact chain'_dropWhile h.tail
    · rwa [List.dropWhile_cons_of_neg hd]

theorem noTwoWs_flip {a b : Char} (h : noTwoWs a b) : noTwoWs b a := by
  unfold noTwoWs at *
  tauto

theorem chain'_reverse_noTwoWs {l : List Char} (h : List.Chain' noTwoWs l) :
    List.Chain' noTwoWs l.reverse := by
  rw [List.chain'_reverse]
  exact h.imp (fun a b hab => noTwoWs_flip hab)

/-- The fully stripped list is a prefix of the left-stripped list. -/
theorem pyStrip_isPrefix (l : List Char) : pyStrip l <+: l.dropWhile isWsChar := by
  have h : (l.dropWhile isWsChar).reverse.dropWhile isWsChar <:+ (l.dropWhile isWsChar).reverse :=
    List.dropWhile_suffix _
  have h2 := List.reverse_prefix.2 h
  rwa [List.reverse_reverse] at h2

/-- A list that is already fully normalized is a fixed point of every
stage of the normalization pipeline. -/
theorem normalize_fix {t : List Char}
    (hA : ∀ c ∈ t, stripAccentChar c = c)
    (hP : ∀ c ∈ t, isPunctChar c = false)
    (hL : ∀ c ∈ t, pyLowerChar c = c)
    (hWS : ∀ c ∈ t, isWsChar c = true → c = ' ')
    (hch : List.Chain' noTwoWs t)
    (hh : ∀ c, t.head? = some c → isWsChar c = false)
    (hl : ∀ c, t.reverse.head? = some c → isWsChar c = false) :
    normalizeForMatching ⟨t⟩ = ⟨t⟩ := by
  cases t with
  | nil => rfl
  | cons c0 cs0 =>
    unfold normalizeForMatching
    simp only [String.data]
    rw [if_neg (by simp)]
    rw [map_fix hA]
    rw [List.filter_eq_self.2 (by intro a ha; simp [hP a ha])]
    rw [show collapseWs (c0 :: cs0) = c0 :: cs0 from collapseWs_fix hWS hch]
    rw [pyStrip_fix hh hl]
    rw [map_fix hL]

/-- Structure of the output of the normalizer, as needed to show that
a second pass is the identity. -/
theorem normalize_output_clean (s : String) :
    (∀ c ∈ (normalizeForMatching s).data, stripAccentChar c = c) ∧
    (∀ c ∈ (normalizeForMatching s).data, isPunctChar c = false) ∧
    (∀ c ∈ (normalizeForMatching s).data, pyLowerChar c = c) ∧
    (∀ c ∈ (normalizeForMatching s).data, isWsChar c = true → c = ' ') ∧
    List.Chain' noTwoWs (normalizeForMatching s).data ∧
    (∀ c, (normalizeForMatching s).data.head? = some c → isWsChar c = false) ∧
    (∀ c, (normalizeForMatching s).data.reverse.head? = some c → isWsChar c = false) := by
  by_cases hs : s.data = []
  · unfold normalizeForMatching
    rw [if_pos hs]
    refine ⟨?_, ?_, ?_, ?_, ?_, ?_, ?_⟩ <;> simp
  · unfold normalizeForMatching
    rw [if_neg hs]
    set w1 := (s.data.map stripAccentChar).filter (fun c => !isPunctChar c) with hw1
    set w2 := collapseWs w1 with hw2
    set w3 := pyStrip w2 with hw3
    have hmem3 : ∀ c ∈ w3, c ∈ w2 := by
      intro c hc
      have hpre := pyStrip_isPrefix w2
      have hsub : List.Sublist w3 w2 :=
        hpre.sublist.trans (List.dropWhile_suffix isWsChar).sublist
      exact hsub.subset hc
    have hmem2 : ∀ c ∈ w2, c = ' ' ∨ (c ∈ w1 ∧ isWsChar c = false) := by
      intro c hc
      exact collapseWsAux_mem hc
    have hmem1 : ∀ c ∈ w1, isPunctChar c = false ∧ ∃ x, c = stripAccentChar x := by
      intro c hc
      rw [hw1] at hc
      simp only [List.mem_filter, List.mem_map] at hc
      rcases hc with ⟨⟨x, _, hx⟩, hpc⟩
      refine ⟨by simpa using hpc, x, hx.symm⟩
    have hchar : ∀ c ∈ w3, (c = ' ' ∨ (isPunctChar c = false ∧ ∃ x, c = stripAccentChar x)) := by
      intro c hc
      rcases hmem2 c (hmem3 c hc) with h | h
      · exact Or.inl h
      · exact Or.inr (hmem1 c h.1)
    simp only [String.data]
    refine ⟨?_, ?_, ?_, ?_, ?_, ?_, ?_⟩
    · intro c hc
      simp only [List.mem_map] at hc
      rcases hc with ⟨d, hd, rfl⟩
      rcases hchar d hd with h | ⟨_, x, rfl⟩
      · subst h; decide
      · exact stripAccent_pyLower_stripAccent x
    · intro c hc
      simp only [List.mem_map] at hc
      rcases hc with ⟨d, hd, rfl⟩
      rcases hchar d hd with h | ⟨hp, _, _⟩
      · subst h; decide
      · exact isPunct_pyLower d hp
    · intro c hc
      simp only [List.mem_map] at hc
      rcases hc with ⟨d, _, rfl⟩
      exact pyLower_pyLower d
    · intro c hc hwc
      simp only [List.mem_map] at hc
      rcases hc with ⟨d, hd, rfl⟩
      rw [isWs_pyLower] at hwc
      rcases hmem2 d (hmem3 d hd) with h | h
      · subst h; decide
      · rw [h.2] at hwc; exact absurd hwc (by simp)
    · have hch2 : List.Chain' noTwoWs w2 := collapseWsAux_chain false
      have hch3 : List.Chain' noTwoWs w3 := by
        have hstep1 : List.Chain' noTwoWs (w2.dropWhile isWsChar) := chain'_dropWhile hch2
        have hstep2 : List.Chain' noTwoWs (w2.dropWhile isWsChar).reverse :=
          chain'_reverse_noTwoWs hstep1
        have hstep3 : List.Chain' noTwoWs ((w2.dropWhile isWsChar).reverse.dropWhile isWsChar) :=
          chain'_dropWhile hstep2
        exact chain'_reverse_noTwoWs hstep3
      rw [List.chain'_map]
      exact hch3.imp (by
        intro a b hab
        unfold noTwoWs at *
        rw [isWs_pyLower, isWs_pyLower]
        exact hab)
    · intro c hc
      rw [List.head?_map] at hc
      rcases Option.map_eq_some'.1 hc with ⟨d, hd, rfl⟩
      rw [isWs_pyLower]
      rcases pyStrip_isPrefix w2 with ⟨tail, htail⟩
      have h3 : w3 ++ tail = List.dropWhile isWsChar w2 := htail
      cases hcase : w3 with
      | nil => rw [hcase] at hd; simp at hd
      | cons a as =>
        rw [hcase] at hd
        simp only [List.head?_cons, Option.some.injEq] at hd
        subst hd
        have hhead : (w2.dropWhile isWsChar).head? = some a := by
          rw [← h3, hcase]
          simp
        exact dropWhile_head hhead
    · intro c hc
      rw [← List.map_reverse, List.head?_map] at hc
      rcases Option.map_eq_some'.1 hc with ⟨d, hd, rfl⟩
      rw [isWs_pyLower]
      have : w3.reverse = (w2.dropWhile isWsChar).reverse.dropWhile isWsChar := by
        rw [hw3]
        unfold pyStrip
        rw [List.reverse_reverse]
      rw [this] at hd
      exact dropWhile_head hd

/-- C7: the text normalizer `_normalize_for_matching` is idempotent:
normalizing an already-normalized string changes nothing. -/
theorem c7_normalize_idempotent (s : String) :
    normalizeForMatching (normalizeForMatching s) = normalizeForMatching s := by
  obtain ⟨hA, hP, hL, hWS, hch, hh, hl⟩ := normalize_output_clean s
  exact normalize_fix hA hP hL hWS hch hh hl

/-! ## Card detection claims -/

theorem filterMap_str_map (l : List String) :
    (l.map Json.str).filterMap
      (fun x => match x with | Json.str s => some s | _ => none) = l := by
  induction l with
  | nil => rfl
  | cons a as ih => simp [ih]

theorem usedStrIds_mockResponse (t : String) (cards : List Card) (fl le : LangSpec) :
    usedStrIds (mockResponse t cards fl le) = mockUsedIds t cards := by
  unfold usedStrIds usedIdsOf mockResponse jget
  simp only [List.find?]
  norm_num
  exact filterMap_str_map _

theorem mockUsedIds_subset (t : String) (cards : List Card) :
    ∀ s ∈ mockUsedIds t cards, s ∈ cards.map Card.id := by
  induction cards with
  | nil => intro s hs; simp [mockUsedIds] at hs
  | cons c cs ih =>
    intro s hs
    unfold mockUsedIds at hs
    simp only [List.foldr_cons] at hs
    by_cases hcond : normalizeForMatching (cardText c) ≠ "" ∧
        (normalizeForMatching (cardText c)).data <:+: (normalizeForMatching t).data
    · rw [if_pos hcond] at hs
      rcases List.mem_cons.1 hs with h | h
      · simp [h]
      · have := ih s h
        simp at this ⊢
        tauto
    · rw [if_neg hcond] at hs
      have := ih s hs
      simp at this ⊢
      tauto

def cCamino : Card := ⟨"c1", "spanish_word", "camino", none, none⟩

def esSpec : LangSpec := ⟨"es", "Spanish"⟩

def enSpec : LangSpec := ⟨"en", "English"⟩

/-- C1 (counterexample): in mock mode, on transcript `camin` with the
single active card `camino`, `call_llm_for_turn` issues no network
call but returns an empty `used_card_ids`, while `fuzzy_card_detect`
— under either fuzzy backend — returns `{c1}`: the id `c1` belongs to
the detector's set and not to the returned set, so the two are not
equal as sets. -/
theorem c1_counterexample :
    (callLlmForTurn ⟨true, false, none⟩ "camin" [cCamino] enSpec esSpec).2 = false ∧
    usedStrIds (callLlmForTurn ⟨true, false, none⟩ "camin" [cCamino] enSpec esSpec).1 = [] ∧
    fuzzyCardDetectRapid "camin" [cCamino] = ["c1"] ∧
    fuzzyCardDetectDifflib "camin" [cCamino] = ["c1"] ∧
    "c1" ∉ usedStrIds (callLlmForTurn ⟨true, false, none⟩ "camin" [cCamino] enSpec esSpec).1 := by
  refine ⟨rfl, rfl, by decide, by decide, by decide⟩

/-- C1 (amended): with `MOCK_MODE` enabled, `call_llm_for_turn` issues
no network call and its `used_card_ids` is exactly the set of active
cards whose normalized text is a non-empty substring of the normalized
transcript — the detector embedded in `_mock_response` — which is not
in general the result of `fuzzy_card_detect`. -/
theorem c1_mock_used_ids (creds : Bool) (raw : Option String) (t : String)
    (cards : List Card) (fl le : LangSpec) :
    callLlmForTurn ⟨true, creds, raw⟩ t cards fl le = (mockResponse t cards fl le, false) ∧
    usedStrIds (callLlmForTurn ⟨true, creds, raw⟩ t cards fl le).1 = mockUsedIds t cards := by
  constructor
  · rfl
  · show usedStrIds (mockResponse t cards fl le) = mockUsedIds t cards
    exact usedStrIds_mockResponse t cards fl le

/-- C2 (counterexample): the card text `¡¡¡¡sí!!!!` normalizes to
`si`, a substring of the normalized transcript `si`, yet
`fuzzy_card_detect` — which lower-cases but does not strip accents or
punctuation — finds no literal substring and both fuzzy backends score
far below their thresholds, so the card is not reported. -/
theorem c2_counterexample :
    ((normalizeForMatching (cardText ⟨"c1", "word", "¡¡¡¡sí!!!!", none, none⟩)).data ≠ [] ∧
     (normalizeForMatching (cardText ⟨"c1", "word", "¡¡¡¡sí!!!!", none, none⟩)).data <:+:
       (normalizeForMatching "si").data) ∧
    "c1" ∉ fuzzyCardDetectRapid "si" [⟨"c1", "word", "¡¡¡¡sí!!!!", none, none⟩] ∧
    "c1" ∉ fuzzyCardDetectDifflib "si" [⟨"c1", "word", "¡¡¡¡sí!!!!", none, none⟩] := by
  refine ⟨⟨by decide, by decide⟩, by decide, by decide⟩

/-- C2 (amended): whenever the lower-cased card text is non-empty and
a literal substring of the lower-cased transcript,
`fuzzy_card_detect` reports the card, for any fuzzy backend. -/
theorem c2_lower_substring_detected (fuzzyHit : String → String → Bool) (t : String) (c : Card)
    (hne : pyLowerStr (cardText c) ≠ "")
    (hsub : (pyLowerStr (cardText c)).data <:+: (pyLowerStr t).data) :
    c.id ∈ fuzzyCardDetect fuzzyHit t [c] := by
  unfold fuzzyCardDetect
  simp only [List.foldr_cons, List.foldr_nil]
  rw [if_neg hne, if_pos hsub]
  exact List.mem_cons_self _ _

/-- Witness for `c2_lower_substring_detected` at the card `camino` and
transcript `el camino`. -/
theorem c2_lower_substring_detected_witness :
    "c1" ∈ fuzzyCardDetect rapidfuzzHit "el camino" [cCamino] := by
  have h := c2_lower_substring_detected rapidfuzzHit "el camino" cCamino
    (by decide) (by decide)
  simpa using h

/-! ## Used-card subset and chunk ordering -/

/-- The spec's invariant on a turn result: every id in
`used_card_ids` is an id of a supplied active card. -/
def usedSubsetProp (out : Json) (cards : List Card) : Prop :=
  ∀ s ∈ usedStrIds out, s ∈ cards.map Card.id

/-- C3 (counterexample): a remote response carrying the foreign id
`bogus` flows through `call_llm_for_turn` into `used_card_ids`
unvalidated, violating the subset invariant. -/
theorem c3_counterexample :
    ¬ usedSubsetProp
        (callLlmForTurn
          ⟨false, true, some (serializeJson (Json.obj [("used_card_ids", Json.arr [Json.str "bogus"])]))⟩
          "hola" [cCamino] enSpec esSpec).1
        [cCamino] := by
  intro h
  exact absurd (h "bogus" (by decide)) (by decide)

/-- C3 (amended): every turn result produced through the mock /
fallback path satisfies the invariant: its `used_card_ids` is a subset
of the ids of the supplied active cards. -/
theorem c3_mock_subset (creds : Bool) (raw : Option String) (t : String)
    (cards : List Card) (fl le : LangSpec) :
    usedSubsetProp (callLlmForTurn ⟨true, creds, raw⟩ t cards fl le).1 cards := by
  intro s hs
  have hout : usedStrIds (callLlmForTurn ⟨true, creds, raw⟩ t cards fl le).1
      = mockUsedIds t cards := by
    show usedStrIds (mockResponse t cards fl le) = mockUsedIds t cards
    exact usedStrIds_mockResponse t cards fl le
  rw [hout] at hs
  exact mockUsedIds_subset t cards s hs

theorem orderedChunks_pair {a b : Json} (ha : chunkPurpose a = some "corrected_sentence")
    (hb : chunkPurpose b = some "native_translation") : orderedChunks [a, b] := by
  intro i k h1 h2
  have hi : (i : Nat) = 0 := by
    rcases i with ⟨iv, hiv⟩
    simp only [List.length_cons, List.length_nil] at hiv
    interval_cases iv
    · rfl
    · exfalso
      simp only [List.get] at h1
      rw [hb] at h1
      simp at h1
  have hk : (k : Nat) = 1 := by
    rcases k with ⟨kv, hkv⟩
    simp only [List.length_cons, List.length_nil] at hkv
    interval_cases kv
    · exfalso
      simp only [List.get] at h2
      rw [ha] at h2
      simp at h2
    · rfl
  omega

/-- C6 (counterexample): a remote response listing the
native-translation chunk before the corrected-sentence chunk flows
through `call_llm_for_turn` unvalidated, so the produced turn result
has two audio chunks in the wrong order. -/
theorem c6_counterexample :
    (audioChunksOf
      (callLlmForTurn
        ⟨false, true, some (serializeJson (Json.obj [("audio_chunks",
            Json.arr [Json.obj [("purpose", Json.str "native_translation")],
                      Json.obj [("purpose", Json.str "corrected_sentence")]])]))⟩
        "hola" [] enSpec esSpec).1).length = 2 ∧
    ¬ orderedChunks (audioChunksOf
      (callLlmForTurn
        ⟨false, true, some (serializeJson (Json.obj [("audio_chunks",
            Json.arr [Json.obj [("purpose", Json.str "native_translation")],
                      Json.obj [("purpose", Json.str "corrected_sentence")]])]))⟩
        "hola" [] enSpec esSpec).1) := by
  constructor
  · rfl
  · decide

/-- C6 (amended): the ordering invariant — corrected-sentence chunk
strictly before every native-translation chunk — holds for every turn
result built by the mock / fallback path, and for the default chunk
pair `api_turn` synthesizes when the LLM output carries no
`audio_chunks` field; chunk lists supplied by the LLM are passed
through without reordering. -/
theorem c6_mock_and_default_ordered (t : String) (cards : List Card) (fl le : LangSpec)
    (llmOut corrected native : Json) (tr : String) :
    orderedChunks (audioChunksOf (mockResponse t cards fl le)) ∧
    (jget llmOut "audio_chunks" = none →
      orderedChunks (apiAudioChunks llmOut corrected native tr le)) := by
  constructor
  · have he : audioChunksOf (mockResponse t cards fl le) = [mockChunk1 t le, mockChunk2 t] := rfl
    rw [he]
    exact orderedChunks_pair rfl rfl
  · intro h
    unfold apiAudioChunks
    rw [h]
    exact orderedChunks_pair rfl rfl

/-- Witness for `c6_mock_and_default_ordered` at concrete inputs. -/
theorem c6_mock_and_default_ordered_witness :
    orderedChunks (audioChunksOf (mockResponse "hola" [] enSpec esSpec)) ∧
    orderedChunks (apiAudioChunks (Json.obj []) Json.null Json.null "hola" esSpec) := by
  obtain ⟨h1, h2⟩ := c6_mock_and_default_ordered "hola" [] enSpec esSpec
    (Json.obj []) Json.null Json.null "hola"
  exact ⟨h1, h2 rfl⟩

/-! ## Configuration defaults, TTS fallback, corrected-sentence fallback -/

/-- C8: with `MOCK_MODE` unset, `game_backend.parse_bool_env` and
`llm_call` read mock mode as `true`, but `tts_helpers` — whose default
is the string `"0"` — reads it as `false`; and whenever a component's
mock flag is `true` that component issues no remote call
(`call_llm_for_turn` reports no network call, and
`tts_bytes_for_chunk` ignores the Azure credentials and response). -/
theorem c8_mock_mode_default_divergence :
    parseBoolEnv none true = true ∧
    llmMockMode none = true ∧
    ttsMockMode none = false ∧
    (∀ (creds : Bool) (raw : Option String) (t : String) (cards : List Card) (fl le : LangSpec),
      (callLlmForTurn ⟨true, creds, raw⟩ t cards fl le).2 = false) ∧
    (∀ (ta : Option (List Nat)) (k r : Option String) (res : Option (List Nat)) (text lang : String),
      ttsBytesForChunk ⟨true, ta, k, r, res⟩ text lang =
        ttsBytesForChunk ⟨true, ta, none, none, none⟩ text lang) := by
  exact ⟨rfl, rfl, rfl, fun _ _ _ _ _ _ => rfl, fun _ _ _ _ _ _ => rfl⟩

/-- C9 (amended): with mock mode off and the Azure credentials unset,
`tts_bytes_for_chunk` never raises and returns silent WAV audio of
duration `min(4.0, 0.25 * max(1, word_count))` seconds — the code
clamps the word count below by 1, so empty text still yields a quarter
second of silence. -/
theorem c9_creds_unset_silence (ta : Option (List Nat)) (res : Option (List Nat))
    (text lang : String) :
    ttsBytesForChunk ⟨false, ta, none, none, res⟩ text lang =
      AudioBytes.silent
        (generateSilentWav (min 4 ((1 : ℚ) / 4 * (max 1 (wordCount text) : Nat))) 22050) := rfl

/-- C9 (counterexample): on empty text the claimed duration
`min(4.0, 0.25 * word_count)` is `0` seconds, but the code returns
`min(4.0, 0.25 * max(1, word_count)) = 0.25` seconds of silence
(5512 frames at 22050 Hz rather than 0). -/
theorem c9_counterexample :
    ttsBytesForChunk ⟨false, none, none, none, none⟩ "" "en-US" ≠
      AudioBytes.silent (generateSilentWav (min 4 ((1 : ℚ) / 4 * (wordCount "" : Nat))) 22050) := by
  have hwc : wordCount "" = 0 := rfl
  have hlhs : ttsBytesForChunk ⟨false, none, none, none, none⟩ "" "en-US" =
      AudioBytes.silent (generateSilentWav ((1 : ℚ) / 4) 22050) := by
    rw [c9_creds_unset_silence]
    norm_num [hwc]
  rw [hlhs, hwc]
  have h0 : (min 4 ((1 : ℚ) / 4 * ((0 : Nat) : ℚ))) = 0 := by norm_num
  rw [h0]
  have hfl : (⌊(5512 + 1 / 2 : ℚ)⌋ : ℤ) = 5512 := by
    rw [Int.floor_eq_iff]
    constructor <;> norm_num
  have h3 : generateSilentWav ((1 : ℚ) / 4) 22050 = ⟨22050, 5512⟩ := by
    unfold generateSilentWav
    rw [show ((1 : ℚ) / 4) * (22050 : Nat) = 5512 + 1 / 2 by norm_num, hfl]
    rfl
  have h4 : generateSilentWav 0 22050 = ⟨22050, 0⟩ := by
    unfold generateSilentWav
    norm_num
  rw [h3, h4]
  simp

/-- C10: for a non-blank transcript, when the LLM output's
`corrected_sentence` is absent or empty, `api_turn` silently replaces
it with the stripped input transcript in the HTTP response. -/
theorem c10_empty_correction_replaced (env : LlmEnv) (req : TurnReq)
    (hne : pyStripStr req.transcript ≠ "")
    (hc : jget (apiLlmOut env req) "corrected_sentence" = none ∨
          jget (apiLlmOut env req) "corrected_sentence" = some (Json.str "")) :
    (apiTurn env req).map ApiResp.corrected_sentence =
      some (Json.str (pyStripStr req.transcript)) := by
  simp only [apiTurn]
  rw [if_neg hne]
  rcases hc with h | h <;> simp [pyGetOr, h, jTruthy]

/-- Witness for `c10_empty_correction_replaced`: a remote response
with no `corrected_sentence` (defaulted to the empty string) yields
the stripped transcript in the response. -/
theorem c10_empty_correction_replaced_witness :
    (apiTurn ⟨false, true, some (serializeJson (Json.obj [("notes", Json.str "x")]))⟩
        ⟨none, "t", [], "  hola  ", none, none⟩).map ApiResp.corrected_sentence =
      some (Json.str "hola") := by
  have h := c10_empty_correction_replaced
    ⟨false, true, some (serializeJson (Json.obj [("notes", Json.str "x")]))⟩
    ⟨none, "t", [], "  hola  ", none, none⟩
    (by decide) (Or.inr rfl)
  simpa using h

/-! ## The extraction failure condition -/

theorem findIdxFrom_append (c : Char) (xs ys : List Char) :
    findIdxFrom c (xs ++ ys) =
      match findIdxFrom c xs with
      | some i => some i
      | none => (findIdxFrom c ys).map (· + xs.length) := by
  induction xs with
  | nil => simp [findIdxFrom]
  | cons x xs ih =>
    by_cases hx : x = c
    · simp [findIdxFrom, hx]
    · have hstep : findIdxFrom c (x :: (xs ++ ys)) = (findIdxFrom c (xs ++ ys)).map (· + 1) := by
        simp [findIdxFrom, hx]
      have hstep2 : findIdxFrom c (x :: xs) = (findIdxFrom c xs).map (· + 1) := by
        simp [findIdxFrom, hx]
      rw [List.cons_append, hstep, hstep2, ih]
      cases hfx : findIdxFrom c xs with
      | some i => simp
      | none =>
        cases hfy : findIdxFrom c ys with
        | some j =>
          simp [Nat.add_assoc]
        | none => simp

theorem findIdxFrom_eq_none (c : Char) (l : List Char) (h : c ∉ l) :
    findIdxFrom c l = none := by
  induction l with
  | nil => rfl
  | cons x xs ih =>
    have hx : x ≠ c := by intro hcontra; exact h (by simp [hcontra])
    simp only [findIdxFrom, hx, if_false]
    rw [ih (by intro hmem; exact h (by simp [hmem]))]
    rfl

theorem findIdxFrom_lt_length {c : Char} :
    ∀ {l : List Char} {i : Nat}, findIdxFrom c l = some i → i < l.length := by
  intro l
  induction l with
  | nil => intro i h; simp [findIdxFrom] at h
  | cons x xs ih =>
    intro i h
    by_cases hx : x = c
    · simp [findIdxFrom, hx] at h
      subst h
      simp
    · simp only [findIdxFrom, hx, if_false] at h
      cases hfx : findIdxFrom c xs with
      | some j =>
        rw [hfx] at h
        simp at h
        have := ih hfx
        simp
        omega
      | none => rw [hfx] at h; simp at h

theorem mem_takeWhile_ws {l : List Char} {p : Char → Bool} :
    ∀ {c : Char}, c ∈ l.takeWhile p → p c = true := by
  induction l with
  | nil => intro c h; simp [List.takeWhile] at h
  | cons x xs ih =>
    intro c h
    by_cases hx : p x
    · rw [List.takeWhile_cons_of_pos hx] at h
      rcases List.mem_cons.1 h with h | h
      · subst h; exact hx
      · exact ih h
    · rw [List.takeWhile_cons_of_neg hx] at h
      simp at h

theorem pyStrip_decomp (u : List Char) :
    ∃ pre suf, u = pre ++ pyStrip u ++ suf ∧
      (∀ c ∈ pre, isWsChar c = true) ∧ (∀ c ∈ suf, isWsChar c = true) := by
  refine ⟨u.takeWhile isWsChar,
    ((u.dropWhile isWsChar).reverse.takeWhile isWsChar).reverse, ?_, ?_, ?_⟩
  · conv_lhs => rw [← List.takeWhile_append_dropWhile (p := isWsChar) (l := u)]
    rw [List.append_assoc]
    congr 1
    unfold pyStrip
    calc u.dropWhile isWsChar
        = (u.dropWhile isWsChar).reverse.reverse := (List.reverse_reverse _).symm
      _ = (((u.dropWhile isWsChar).reverse.takeWhile isWsChar) ++
            ((u.dropWhile isWsChar).reverse.dropWhile isWsChar)).reverse := by
            rw [List.takeWhile_append_dropWhile]
      _ = ((u.dropWhile isWsChar).reverse.dropWhile isWsChar).reverse ++
            ((u.dropWhile isWsChar).reverse.takeWhile isWsChar).reverse := by
            rw [List.reverse_append]
  · intro c hc
    exact mem_takeWhile_ws hc
  · intro c hc
    rw [List.mem_reverse] at hc
    exact mem_takeWhile_ws hc

theorem not_mem_of_ws {l : List Char} (hl : ∀ c ∈ l, isWsChar c = true) {c : Char}
    (hc : isWsChar c = false) : c ∉ l := by
  intro hmem
  rw [hl c hmem] at hc
  exact Bool.noConfusion hc

theorem drop_append_len (xs ys : List Char) (n : Nat) :
    (xs ++ ys).drop (xs.length + n) = ys.drop n := by
  induction xs with
  | nil => simp
  | cons x xs ih => simpa [Nat.succ_add] using ih

theorem drop_append_le (xs ys : List Char) {n : Nat} (h : n ≤ xs.length) :
    (xs ++ ys).drop n = xs.drop n ++ ys := by
  induction xs generalizing n with
  | nil => simp at h; simp [h]
  | cons x xs ih =>
    cases n with
    | zero => simp
    | succ m =>
      simp only [List.cons_append, List.drop_succ_cons]
      exact ih (by simpa using h)

theorem take_append_le (xs ys : List Char) {n : Nat} (h : n ≤ xs.length) :
    (xs ++ ys).take n = xs.take n := by
  induction xs generalizing n with
  | nil => simp at h; simp [h]
  | cons x xs ih =>
    cases n with
    | zero => simp
    | succ m =>
      simp only [List.cons_append, List.take_succ_cons]
      rw [ih (by simpa using h)]

/-- The failure condition of the claim: after stripping code-fence
markers, there is no `{`, no `}`, the last `}` comes before the first
`{`, or the enclosed substring is not valid JSON. -/
def specFailCond (text : String) : Prop :=
  pyFind lbrace (stripFences text.data) = -1 ∨
  pyRfind rbrace (stripFences text.data) = -1 ∨
  pyRfind rbrace (stripFences text.data) < pyFind lbrace (stripFences text.data) ∨
  loadsL (((stripFences text.data).drop (pyFind lbrace (stripFences text.data)).toNat).take
    ((pyRfind rbrace (stripFences text.data)).toNat + 1 -
      (pyFind lbrace (stripFences text.data)).toNat)) = none

theorem extractJson_eq_none_iff (text : String) :
    extractJson text = none ↔ specFailCond text := by
  unfold extractJson specFailCond
  set u := stripFences text.data with hudef
  obtain ⟨pre, suf, hu, hpre, hsuf⟩ := pyStrip_decomp u
  set t2 := pyStrip u with ht2def
  have hlb_ws : isWsChar lbrace = false := by decide
  have hrb_ws : isWsChar rbrace = false := by decide
  have hfind_u : findIdxFrom lbrace u =
      match findIdxFrom lbrace t2 with
      | some i => some (i + pre.length)
      | none => none := by
    conv_lhs => rw [hu, List.append_assoc]
    rw [findIdxFrom_append, findIdxFrom_eq_none lbrace pre (not_mem_of_ws hpre hlb_ws)]
    rw [findIdxFrom_append, findIdxFrom_eq_none lbrace suf (not_mem_of_ws hsuf hlb_ws)]
    cases hft : findIdxFrom lbrace t2 with
    | some i => simp [Nat.add_comm]
    | none => simp
  have hrfind_u : findIdxFrom rbrace u.reverse =
      match findIdxFrom rbrace t2.reverse with
      | some j => some (j + suf.length)
      | none => none := by
    conv_lhs => rw [hu]
    rw [List.reverse_append, List.reverse_append]
    rw [findIdxFrom_append, findIdxFrom_eq_none rbrace suf.reverse
      (by intro hmem; exact not_mem_of_ws hsuf hrb_ws (List.mem_reverse.1 hmem))]
    rw [findIdxFrom_append, findIdxFrom_eq_none rbrace pre.reverse
      (by intro hmem; exact not_mem_of_ws hpre hrb_ws (List.mem_reverse.1 hmem))]
    cases hft : findIdxFrom rbrace t2.reverse with
    | some j => simp [Nat.add_comm]
    | none => simp
  have hulen : u.length = pre.length + (t2.length + suf.length) := by
    conv_lhs => rw [hu]
    simp
  cases hfl : findIdxFrom lbrace t2 with
  | none =>
    have hcu : pyFind lbrace u = -1 := by
      unfold pyFind
      rw [hfind_u, hfl]
    have hct : pyFind lbrace t2 = -1 := by
      unfold pyFind
      rw [hfl]
    rw [if_pos (Or.inl hct)]
    simp [hcu]
  | some i =>
    have hcu : pyFind lbrace u = (i : Int) + pre.length := by
      unfold pyFind
      rw [hfind_u, hfl]
      simp
    have hct : pyFind lbrace t2 = (i : Int) := by
      unfold pyFind
      rw [hfl]
    have hilt : i < t2.length := findIdxFrom_lt_length hfl
    cases hfr : findIdxFrom rbrace t2.reverse with
    | none =>
      have hru : pyRfind rbrace u = -1 := by
        unfold pyRfind
        rw [hrfind_u, hfr]
      have hrt : pyRfind rbrace t2 = -1 := by
        unfold pyRfind
        rw [hfr]
      rw [if_pos (Or.inr (Or.inl hrt))]
      simp [hru, hcu, hrt]
    | some j' =>
      have hjlt : j' < t2.length := by
        have := findIdxFrom_lt_length hfr
        simpa using this
      have hru : pyRfind rbrace u = (pre.length : Int) + ((t2.length : Int) - 1 - j') := by
        unfold pyRfind
        rw [hrfind_u, hfr, hulen]
        push_cast
        ring
      have hrt : pyRfind rbrace t2 = (t2.length : Int) - 1 - j' := by
        unfold pyRfind
        rw [hfr]
      by_cases hlt : pyRfind rbrace t2 < pyFind lbrace t2
      · rw [if_pos (Or.inr (Or.inr hlt))]
        have hltu : pyRfind rbrace u < pyFind lbrace u := by
          rw [hru, hcu, hrt] at *
          omega
        simp [hltu]
      · rw [if_neg (by
          push_neg
          refine ⟨by rw [hct]; omega, by rw [hrt]; omega, by push_neg at hlt; exact hlt⟩)]
        have hne1 : ¬ pyFind lbrace u = -1 := by rw [hcu]; omega
        have hne2 : ¬ pyRfind rbrace u = -1 := by rw [hru]; omega
        have hne3 : ¬ pyRfind rbrace u < pyFind lbrace u := by
          rw [hru, hcu, hrt, hct] at *
          omega
        have hslice : (u.drop (pyFind lbrace u).toNat).take
            ((pyRfind rbrace u).toNat + 1 - (pyFind lbrace u).toNat) =
            (t2.drop (pyFind lbrace t2).toNat).take
            ((pyRfind rbrace t2).toNat + 1 - (pyFind lbrace t2).toNat) := by
          rw [hru, hcu, hrt, hct] at *
          have hj0 : (0 : Int) ≤ (t2.length : Int) - 1 - j' := by omega
          have htn1 : ((i : Int) + (pre.length : Int)).toNat = pre.length + i := by omega
          have htn2 : ((pre.length : Int) + ((t2.length : Int) - 1 - j')).toNat =
              pre.length + (t2.length - 1 - j') := by omega
          have htn3 : ((i : Int)).toNat = i := by omega
          have htn4 : ((t2.length : Int) - 1 - j').toNat = t2.length - 1 - j' := by omega
          rw [htn1, htn2, htn3, htn4]
          have harith : pre.length + (t2.length - 1 - j') + 1 - (pre.length + i) =
              t2.length - 1 - j' + 1 - i := by omega
          rw [harith]
          conv_lhs => rw [hu]
          rw [List.append_assoc]
          rw [drop_append_len pre (t2 ++ suf) i]
          rw [drop_append_le t2 suf (by omega)]
          rw [take_append_le (t2.drop i) suf (by simp [List.length_drop]; omega)]
        rw [hslice]
        constructor
        · intro h
          exact Or.inr (Or.inr (Or.inr h))
        · intro h
          rcases h with h | h | h | h
          · exact absurd h hne1
          · exact absurd h hne2
          · exact absurd h hne3
          · exact h

/-- C5: `_extract_json` fails exactly when, after stripping code-fence
markers, the text has no `{` or no `}`, the last `}` precedes the
first `{`, or the enclosed substring is not valid JSON; and whenever
the turn orchestrator reaches extraction and it fails, the turn
operation returns the mock/default result instead of propagating the
error. -/
theorem c5_extract_fail_and_fallback :
    (∀ text : String, extractJson text = none ↔ specFailCond text) ∧
    (∀ (env : LlmEnv) (t : String) (cards : List Card) (fl le : LangSpec) (raw : String),
      llmClientAvailable env = true → env.rawText = some raw → extractJson raw = none →
      callLlmForTurn env t cards fl le = (mockResponse t cards fl le, true)) := by
  constructor
  · exact extractJson_eq_none_iff
  · intro env t cards fl le raw h1 h2 h3
    unfold callLlmForTurn
    rw [if_pos h1, h2]
    simp only [h3]

/-- Witness for `c5_extract_fail_and_fallback` on the input
`hello world`, which contains no braces. -/
theorem c5_extract_fail_and_fallback_witness :
    extractJson "hello world" = none ∧
    callLlmForTurn ⟨false, true, some "hello world"⟩ "t" [] enSpec esSpec =
      (mockResponse "t" [] enSpec esSpec, true) := by
  have h := c5_extract_fail_and_fallback
  refine ⟨(h.1 "hello world").2 (Or.inl (by decide)), ?_⟩
  exact h.2 ⟨false, true, some "hello world"⟩ "t" [] enSpec esSpec "hello world" rfl rfl
    ((h.1 "hello world").2 (Or.inl (by decide)))

/-! ## Round-tripping the JSON printer through the parser -/

mutual

def jm : Json → Nat
  | .null => 1
  | .bool _ => 1
  | .num _ => 1
  | .str _ => 1
  | .arr xs => 1 + jmL xs
  | .obj kvs => 1 + jmM kvs

def jmL : List Json → Nat
  | [] => 1
  | v :: vs => 1 + max (jm v) (jmL vs)

def jmM : List (String × Json) → Nat
  | [] => 1
  | (_, v) :: kvs => 1 + max (jm v) (jmM kvs)

end

theorem jm_pos (v : Json) : 1 ≤ jm v := by
  cases v <;> simp [jm]

theorem natDigitsF_eq (n : Nat) : ∀ f, n < f → natDigitsF f n = natDigits n := by
  induction n using Nat.strong_induction_on with
  | _ n ihn =>
    intro f hf
    cases f with
    | zero => omega
    | succ f' =>
      by_cases h10 : n < 10
      · simp [natDigitsF, natDigits, h10]
      · have hdiv : n / 10 < n := Nat.div_lt_self (by omega) (by omega)
        show natDigitsF (f' + 1) n = natDigitsF (n + 1) n
        simp only [natDigitsF, h10, if_false]
        rw [ihn (n / 10) hdiv f' (by omega), ihn (n / 10) hdiv n (by omega)]

theorem natDigits_eq (n : Nat) :
    natDigits n = if n < 10 then [digitChar n] else natDigits (n / 10) ++ [digitChar (n % 10)] := by
  by_cases h10 : n < 10
  · simp [natDigits, natDigitsF, h10]
  · have hdiv : n / 10 < n := Nat.div_lt_self (by omega) (by omega)
    show natDigitsF (n + 1) n = _
    simp only [natDigitsF, h10, if_false]
    rw [natDigitsF_eq (n / 10) n (by omega)]

theorem digitChar_isDigit {d : Nat} (h : d < 10) : isDigitChar (digitChar d) = true := by
  interval_cases d <;> decide

theorem digitChar_toNat {d : Nat} (h : d < 10) : (digitChar d).toNat = 48 + d := by
  interval_cases d <;> decide

theorem natDigits_ne_nil (n : Nat) : natDigits n ≠ [] := by
  rw [natDigits_eq]
  by_cases h10 : n < 10 <;> simp [h10]

theorem natDigits_all_digits (n : Nat) : ∀ c ∈ natDigits n, isDigitChar c = true := by
  induction n using Nat.strong_induction_on with
  | _ n ihn =>
    intro c hc
    rw [natDigits_eq] at hc
    by_cases h10 : n < 10
    · rw [if_pos h10] at hc
      simp at hc
      subst hc
      exact digitChar_isDigit h10
    · rw [if_neg h10] at hc
      rcases List.mem_append.1 hc with h | h
      · exact ihn (n / 10) (Nat.div_lt_self (by omega) (by omega)) c h
      · simp at h
        subst h
        exact digitChar_isDigit (Nat.mod_lt _ (by omega))

theorem natDigits_head_nonzero (n : Nat) (hn : 1 ≤ n) :
    ∃ c cs, natDigits n = c :: cs ∧ isDigitChar c = true ∧ c ≠ '0' := by
  induction n using Nat.strong_induction_on with
  | _ n ihn =>
    rw [natDigits_eq]
    by_cases h10 : n < 10
    · refine ⟨digitChar n, [], by simp [h10], digitChar_isDigit h10, ?_⟩
      intro hcontra
      have h1 : (digitChar n).toNat = 48 + n := digitChar_toNat h10
      rw [hcontra] at h1
      have h2 : ('0' : Char).toNat = 48 := by decide
      omega
    · obtain ⟨c, cs, hcs, hdig, hz⟩ :=
        ihn (n / 10) (Nat.div_lt_self (by omega) (by omega)) (by omega)
      exact ⟨c, cs ++ [digitChar (n % 10)], by simp [h10, hcs], hdig, hz⟩

theorem parseDigitsAux_stop {t : List Char} (ht : ∀ c, t.head? = some c → isDigitChar c = false)
    (acc : Nat) : parseDigitsAux acc t = (acc, t) := by
  cases t with
  | nil => rfl
  | cons c cs =>
    have := ht c (by simp)
    simp [parseDigitsAux, this]

theorem parseDigitsAux_append (n : Nat) : ∀ (acc : Nat) (t : List Char),
    parseDigitsAux acc (natDigits n ++ t) =
      parseDigitsAux (acc * 10 ^ (natDigits n).length + n) t := by
  induction n using Nat.strong_induction_on with
  | _ n ihn =>
    intro acc t
    rw [natDigits_eq]
    by_cases h10 : n < 10
    · rw [if_pos h10]
      have hdig := digitChar_isDigit h10
      have htn := digitChar_toNat h10
      simp only [List.singleton_append, parseDigitsAux, hdig, if_true, htn,
        List.length_singleton, pow_one]
      congr 1
      omega
    · rw [if_neg h10]
      have hdiv : n / 10 < n := Nat.div_lt_self (by omega) (by omega)
      rw [List.append_assoc, ihn (n / 10) hdiv]
      have hmod : n % 10 < 10 := Nat.mod_lt _ (by omega)
      have hdig := digitChar_isDigit hmod
      have htn := digitChar_toNat hmod
      simp only [List.singleton_append, parseDigitsAux, hdig, if_true, htn]
      have hlen : (natDigits (n / 10) ++ [digitChar (n % 10)]).length =
          (natDigits (n / 10)).length + 1 := by simp
      rw [hlen]
      congr 1
      have hdm : n / 10 * 10 + n % 10 = n := by omega
      have hpow : (10 : Nat) ^ ((natDigits (n / 10)).length + 1) =
          10 ^ (natDigits (n / 10)).length * 10 := pow_succ 10 _
      rw [hpow]
      set P := (10 : Nat) ^ (natDigits (n / 10)).length
      calc (acc * P + n / 10) * 10 + (48 + n % 10 - 48)
          = acc * (P * 10) + (n / 10 * 10 + n % 10) := by ring_nf; omega
        _ = acc * (P * 10) + n := by rw [hdm]

theorem parseNumBody_natDigits (n : Nat) (t : List Char)
    (ht : ∀ c, t.head? = some c → isDigitChar c = false) :
    parseNumBody (natDigits n ++ t) = some (n, t) := by
  by_cases hn : n = 0
  · subst hn
    show parseNumBody (['0'] ++ t) = some (0, t)
    simp [parseNumBody]
  · obtain ⟨c, cs, hcs, hdig, hz⟩ := natDigits_head_nonzero n (by omega)
    rw [hcs]
    simp only [List.cons_append, parseNumBody, hz, if_false, hdig, if_true]
    have hstep : parseDigitsAux 0 ((c :: cs) ++ t) = parseDigitsAux (c.toNat - 48) (cs ++ t) := by
      simp [parseDigitsAux, hdig]
    rw [← hstep, ← hcs, parseDigitsAux_append n 0 t, parseDigitsAux_stop ht]
    simp

theorem hexVal_hexDigitChar {d : Nat} (h : d < 16) : hexVal (hexDigitChar d) = some d := by
  interval_cases d <;> decide

theorem psb_quote (acc rest : List Char) :
    parseStringBody acc (quoteChar :: rest) = some (⟨acc.reverse⟩, rest) := by
  rw [parseStringBody.eq_def]
  dsimp only []
  rw [if_pos rfl]

theorem psb_esc_bslash (acc t : List Char) :
    parseStringBody acc (bslash :: bslash :: t) = parseStringBody (bslash :: acc) t := by
  rw [parseStringBody.eq_def]
  dsimp only []
  rw [if_neg (by decide), if_pos rfl, if_neg (by decide), if_pos rfl]

theorem psb_esc_quote (acc t : List Char) :
    parseStringBody acc (bslash :: quoteChar :: t) = parseStringBody (quoteChar :: acc) t := by
  rw [parseStringBody.eq_def]
  dsimp only []
  rw [if_neg (by decide), if_pos rfl, if_pos rfl]

theorem psb_esc_b (acc t : List Char) :
    parseStringBody acc (bslash :: 'b' :: t) = parseStringBody (Char.ofNat 8 :: acc) t := by
  rw [parseStringBody.eq_def]
  dsimp only []
  rw [if_neg (by decide), if_pos rfl, if_neg (by decide), if_neg (by decide),
    if_neg (by decide), if_pos rfl]

theorem psb_esc_t (acc t : List Char) :
    parseStringBody acc (bslash :: 't' :: t) = parseStringBody (Char.ofNat 9 :: acc) t := by
  rw [parseStringBody.eq_def]
  dsimp only []
  rw [if_neg (by decide), if_pos rfl, if_neg (by decide), if_neg (by decide),
    if_neg (by decide), if_neg (by decide), if_neg (by decide), if_neg (by decide),
    if_neg (by decide), if_pos rfl]

theorem psb_esc_n (acc t : List Char) :
    parseStringBody acc (bslash :: 'n' :: t) = parseStringBody (Char.ofNat 10 :: acc) t := by
  rw [parseStringBody.eq_def]
  dsimp only []
  rw [if_neg (by decide), if_pos rfl, if_neg (by decide), if_neg (by decide),
    if_neg (by decide), if_neg (by decide), if_neg (by decide), if_pos rfl]

theorem psb_esc_f (acc t : List Char) :
    parseStringBody acc (bslash :: 'f' :: t) = parseStringBody (Char.ofNat 12 :: acc) t := by
  rw [parseStringBody.eq_def]
  dsimp only []
  rw [if_neg (by decide), if_pos rfl, if_neg (by decide), if_neg (by decide),
    if_neg (by decide), if_neg (by decide), if_pos rfl]

theorem psb_esc_r (acc t : List Char) :
    parseStringBody acc (bslash :: 'r' :: t) = parseStringBody (Char.ofNat 13 :: acc) t := by
  rw [parseStringBody.eq_def]
  dsimp only []
  rw [if_neg (by decide), if_pos rfl, if_neg (by decide), if_neg (by decide),
    if_neg (by decide), if_neg (by decide), if_neg (by decide), if_neg (by decide),
    if_pos rfl]

theorem psb_esc_u (acc t : List Char) {c : Char} (h8 : c.toNat < 32) :
    parseStringBody acc (bslash :: 'u' :: '0' :: '0' ::
      hexDigitChar (c.toNat / 16) :: hexDigitChar (c.toNat % 16) :: t) =
      parseStringBody (c :: acc) t := by
  have hdiv : c.toNat / 16 < 16 := by omega
  have hmod : c.toNat % 16 < 16 := Nat.mod_lt _ (by omega)
  rw [parseStringBody.eq_def]
  dsimp only []
  rw [if_neg (by decide), if_pos rfl, if_neg (by decide), if_neg (by decide),
    if_neg (by decide), if_neg (by decide), if_neg (by decide), if_neg (by decide),
    if_neg (by decide), if_neg (by decide), if_pos rfl]
  rw [show hexVal '0' = some 0 from rfl, hexVal_hexDigitChar hdiv, hexVal_hexDigitChar hmod]
  dsimp only []
  have hchar : Char.ofNat (4096 * 0 + 256 * 0 + 16 * (c.toNat / 16) + c.toNat % 16) = c := by
    have harith : 4096 * 0 + 256 * 0 + 16 * (c.toNat / 16) + c.toNat % 16 = c.toNat := by
      omega
    rw [harith, Char.ofNat_toNat]
  rw [hchar]

theorem psb_raw (acc t : List Char) {c : Char} (h1 : ¬c = bslash) (h2 : ¬c = quoteChar)
    (h8 : ¬c.toNat < 32) :
    parseStringBody acc (c :: t) = parseStringBody (c :: acc) t := by
  rw [parseStringBody.eq_def]
  dsimp only []
  rw [if_neg h2, if_neg h1, if_neg h8]

theorem parseStringBody_escape (s : List Char) : ∀ (acc rest : List Char),
    parseStringBody acc (s.flatMap escapeChar ++ (quoteChar :: rest)) =
      some (⟨acc.reverse ++ s⟩, rest) := by
  induction s with
  | nil =>
    intro acc rest
    rw [show ([] : List Char).flatMap escapeChar ++ (quoteChar :: rest) = quoteChar :: rest by
      simp]
    rw [psb_quote]
    simp
  | cons c cs ih =>
    intro acc rest
    rw [show (c :: cs).flatMap escapeChar = escapeChar c ++ cs.flatMap escapeChar by simp,
      List.append_assoc]
    by_cases h1 : c = bslash
    · subst h1
      rw [show escapeChar bslash = [bslash, bslash] from rfl]
      rw [show ([bslash, bslash] : List Char) ++ (cs.flatMap escapeChar ++ (quoteChar :: rest)) =
        bslash :: bslash :: (cs.flatMap escapeChar ++ (quoteChar :: rest)) from rfl]
      rw [psb_esc_bslash, ih]
      simp
    · by_cases h2 : c = quoteChar
      · subst h2
        rw [show escapeChar quoteChar = [bslash, quoteChar] from rfl]
        rw [show ([bslash, quoteChar] : List Char) ++
          (cs.flatMap escapeChar ++ (quoteChar :: rest)) =
          bslash :: quoteChar :: (cs.flatMap escapeChar ++ (quoteChar :: rest)) from rfl]
        rw [psb_esc_quote, ih]
        simp
      · by_cases h3 : c = Char.ofNat 8
        · subst h3
          rw [show escapeChar (Char.ofNat 8) = [bslash, 'b'] from rfl]
          rw [show ([bslash, 'b'] : List Char) ++
            (cs.flatMap escapeChar ++ (quoteChar :: rest)) =
            bslash :: 'b' :: (cs.flatMap escapeChar ++ (quoteChar :: rest)) from rfl]
          rw [psb_esc_b, ih]
          simp
        · by_cases h4 : c = Char.ofNat 9
          · subst h4
            rw [show escapeChar (Char.ofNat 9) = [bslash, 't'] from rfl]
            rw [show ([bslash, 't'] : List Char) ++
              (cs.flatMap escapeChar ++ (quoteChar :: rest)) =
              bslash :: 't' :: (cs.flatMap escapeChar ++ (quoteChar :: rest)) from rfl]
            rw [psb_esc_t, ih]
            simp
          · by_cases h5 : c = Char.ofNat 10
            · subst h5
              rw [show escapeChar (Char.ofNat 10) = [bslash, 'n'] from rfl]
              rw [show ([bslash, 'n'] : List Char) ++
                (cs.flatMap escapeChar ++ (quoteChar :: rest)) =
                bslash :: 'n' :: (cs.flatMap escapeChar ++ (quoteChar :: rest)) from rfl]
              rw [psb_esc_n, ih]
              simp
            · by_cases h6 : c = Char.ofNat 12
              · subst h6
                rw [show escapeChar (Char.ofNat 12) = [bslash, 'f'] from rfl]
                rw [show ([bslash, 'f'] : List Char) ++
                  (cs.flatMap escapeChar ++ (quoteChar :: rest)) =
                  bslash :: 'f' :: (cs.flatMap escapeChar ++ (quoteChar :: rest)) from rfl]
                rw [psb_esc_f, ih]
                simp
              · by_cases h7 : c = Char.ofNat 13
                · subst h7
                  rw [show escapeChar (Char.ofNat 13) = [bslash, 'r'] from rfl]
                  rw [show ([bslash, 'r'] : List Char) ++
                    (cs.flatMap escapeChar ++ (quoteChar :: rest)) =
                    bslash :: 'r' :: (cs.flatMap escapeChar ++ (quoteChar :: rest)) from rfl]
                  rw [psb_esc_r, ih]
                  simp
                · by_cases h8 : c.toNat < 32
                  · have hesc : escapeChar c = [bslash, 'u', '0', '0',
                        hexDigitChar (c.toNat / 16), hexDigitChar (c.toNat % 16)] := by
                      unfold escapeChar
                      rw [if_neg h1, if_neg h2, if_neg h3, if_neg h4, if_neg h5, if_neg h6,
                        if_neg h7, if_pos h8]
                    rw [hesc]
                    rw [show ([bslash, 'u', '0', '0', hexDigitChar (c.toNat / 16),
                      hexDigitChar (c.toNat % 16)] : List Char) ++
                        (cs.flatMap escapeChar ++ (quoteChar :: rest)) =
                      bslash :: 'u' :: '0' :: '0' :: hexDigitChar (c.toNat / 16) ::
                        hexDigitChar (c.toNat % 16) ::
                        (cs.flatMap escapeChar ++ (quoteChar :: rest)) from rfl]
                    rw [psb_esc_u _ _ h8, ih]
                    simp
                  · have hesc : escapeChar c = [c] := by
                      unfold escapeChar
                      rw [if_neg h1, if_neg h2, if_neg h3, if_neg h4, if_neg h5, if_neg h6,
                        if_neg h7, if_neg h8]
                    rw [hesc]
                    rw [show ([c] : List Char) ++ (cs.flatMap escapeChar ++ (quoteChar :: rest)) =
                      c :: (cs.flatMap escapeChar ++ (quoteChar :: rest)) from rfl]
                    rw [psb_raw _ _ h1 h2 h8, ih]
                    simp

theorem parseStringBody_printString (s : String) (rest : List Char) :
    parseStringBody [] (escapeString s ++ (quoteChar :: rest)) = some (s, rest) := by
  unfold escapeString
  rw [parseStringBody_escape]
  rfl

def printElemsAll : List Json → List Char
  | [] => []
  | v :: vs => printJson v ++ printElemsRest vs

def printMembersAll : List (String × Json) → List Char
  | [] => []
  | kv :: kvs => printMember kv ++ printMembersRest kvs

/-- Heads that cannot begin a JSON value are absent from the start of
a printed value: it is non-empty, not whitespace, and not a closer. -/
theorem isDigit_char_props {c : Char} (h : isDigitChar c = true) :
    c ≠ quoteChar ∧ c ≠ lbrace ∧ c ≠ lbrack ∧ c ≠ '-' ∧ isJsonWs c = false ∧
      c ≠ rbrack ∧ c ≠ rbrace ∧ c ≠ ',' := by
  refine ⟨?_, ?_, ?_, ?_, ?_, ?_, ?_, ?_⟩
  · intro he; subst he; exact absurd h (by decide)
  · intro he; subst he; exact absurd h (by decide)
  · intro he; subst he; exact absurd h (by decide)
  · intro he; subst he; exact absurd h (by decide)
  · simp only [isDigitChar, Bool.and_eq_true, decide_eq_true_eq] at h
    simp only [isJsonWs, Bool.or_eq_false_iff, decide_eq_false_iff_not]
    omega
  · intro he; subst he; exact absurd h (by decide)
  · intro he; subst he; exact absurd h (by decide)
  · intro he; subst he; exact absurd h (by decide)

theorem printJson_shape (v : Json) :
    ∃ c cs, printJson v = c :: cs ∧ isJsonWs c = false ∧ c ≠ rbrack ∧ c ≠ rbrace := by
  cases v with
  | null =>
    refine ⟨'n', _, rfl, ?_, ?_, ?_⟩ <;> decide
  | bool b =>
    cases b with
    | true =>
      refine ⟨'t', _, rfl, ?_, ?_, ?_⟩ <;> decide
    | false =>
      refine ⟨'f', _, rfl, ?_, ?_, ?_⟩ <;> decide
  | str s =>
    refine ⟨quoteChar, _, rfl, ?_, ?_, ?_⟩ <;> decide
  | num n =>
    show ∃ c cs, intPrint n = c :: cs ∧ _
    unfold intPrint
    by_cases hn : n < 0
    · rw [if_pos hn]
      refine ⟨'-', _, rfl, ?_, ?_, ?_⟩ <;> decide
    · rw [if_neg hn]
      cases hds : natDigits n.toNat with
      | nil => exact absurd hds (natDigits_ne_nil _)
      | cons c cs =>
        have hdg : isDigitChar c = true := natDigits_all_digits _ c (by rw [hds]; simp)
        obtain ⟨_, _, _, _, hws, hrk, hre, _⟩ := isDigit_char_props hdg
        exact ⟨c, cs, rfl, hws, hrk, hre⟩
  | arr xs =>
    cases xs with
    | nil =>
      refine ⟨lbrack, _, rfl, ?_, ?_, ?_⟩ <;> decide
    | cons v vs =>
      refine ⟨lbrack, _, rfl, ?_, ?_, ?_⟩ <;> decide
  | obj kvs =>
    cases kvs with
    | nil =>
      refine ⟨lbrace, _, rfl, ?_, ?_, ?_⟩ <;> decide
    | cons kv kvs =>
      refine ⟨lbrace, _, rfl, ?_, ?_, ?_⟩ <;> decide

def noDigitHead (rest : List Char) : Prop :=
  ∀ c, rest.head? = some c → isDigitChar c = false

theorem noDigitHead_nil : noDigitHead [] := by
  intro c h
  simp at h

theorem noDigitHead_cons {c : Char} (h : isDigitChar c = false) (l : List Char) :
    noDigitHead (c :: l) := by
  intro d hd
  simp at hd
  subst hd
  exact h

theorem skipWs_not_ws {c : Char} (h : isJsonWs c = false) (l : List Char) :
    skipWs (c :: l) = c :: l := by
  show List.dropWhile isJsonWs (c :: l) = c :: l
  rw [List.dropWhile_cons, if_neg (by simp [h])]

theorem skipWs_space (l : List Char) : skipWs (' ' :: l) = skipWs l := by
  show List.dropWhile isJsonWs (' ' :: l) = List.dropWhile isJsonWs l
  rw [List.dropWhile_cons, if_pos (by decide)]

set_option maxHeartbeats 1000000 in
theorem pv_digit {c : Char} (h : isDigitChar c = true) (f : Nat) (rest : List Char) :
    parseValue (f + 1) (c :: rest) =
      (parseNumBody (c :: rest)).map (fun p => (Json.num (p.1 : Int), p.2)) := by
  obtain ⟨hq, hbr, hbk, hm, _, _, _, _⟩ := isDigit_char_props h
  simp only [parseValue]
  rw [if_neg hq, if_neg hbr, if_neg hbk, if_neg hm, if_pos h]

theorem pv_num (n : Int) (f : Nat) (rest : List Char) (hrest : noDigitHead rest) :
    parseValue (f + 1) (intPrint n ++ rest) = some (Json.num n, rest) := by
  by_cases hn : n < 0
  · unfold intPrint
    rw [if_pos hn]
    rw [show ('-' :: natDigits (-n).toNat) ++ rest = '-' :: (natDigits (-n).toNat ++ rest)
      from rfl]
    rw [show parseValue (f + 1) ('-' :: (natDigits (-n).toNat ++ rest)) =
      (parseNumBody (natDigits (-n).toNat ++ rest)).map
        (fun p => (Json.num (-(p.1 : Int)), p.2)) from rfl]
    rw [parseNumBody_natDigits _ _ hrest]
    have hcast : -(((-n).toNat : Int)) = n := by omega
    simp [hcast]
    omega
  · unfold intPrint
    rw [if_neg hn]
    cases hds : natDigits n.toNat with
    | nil => exact absurd hds (natDigits_ne_nil _)
    | cons c cs =>
      have hdg : isDigitChar c = true := natDigits_all_digits _ c (by rw [hds]; simp)
      rw [show (c :: cs) ++ rest = c :: (cs ++ rest) from rfl]
      rw [pv_digit hdg]
      rw [show c :: (cs ++ rest) = (c :: cs) ++ rest from rfl, ← hds]
      rw [parseNumBody_natDigits _ _ hrest]
      have hcast : ((n.toNat : Int)) = n := by omega
      simp [hcast]

theorem pv_lbrack (f : Nat) (rest : List Char) :
    parseValue (f + 1) (lbrack :: rest) =
      (match skipWs rest with
      | [] => none
      | d :: rest1 =>
        if d = rbrack then some (Json.arr [], rest1)
        else (parseElems f (d :: rest1)).map (fun p => (Json.arr p.1, p.2))) := rfl

theorem pv_lbrace (f : Nat) (rest : List Char) :
    parseValue (f + 1) (lbrace :: rest) =
      (match skipWs rest with
      | [] => none
      | d :: rest1 =>
        if d = rbrace then some (Json.obj [], rest1)
        else (parseMembers f (d :: rest1)).map (fun p => (Json.obj p.1, p.2))) := rfl

theorem pv_quote (f : Nat) (rest : List Char) :
    parseValue (f + 1) (quoteChar :: rest) =
      (parseStringBody [] rest).map (fun p => (Json.str p.1, p.2)) := rfl

theorem pe_step (f : Nat) (cs : List Char) :
    parseElems (f + 1) cs =
      (match parseValue f cs with
      | none => none
      | some (v, rest) =>
        match skipWs rest with
        | [] => none
        | d :: rest1 =>
          if d = ',' then
            match parseElems f (skipWs rest1) with
            | none => none
            | some (vs, rest2) => some (v :: vs, rest2)
          else if d = rbrack then some ([v], rest1)
          else none) := rfl

theorem pm_quote (f : Nat) (rest : List Char) :
    parseMembers (f + 1) (quoteChar :: rest) =
      (match parseStringBody [] rest with
      | none => none
      | some (k, rest1) =>
        match skipWs rest1 with
        | [] => none
        | d0 :: rest2 =>
          if d0 = ':' then
            match parseValue f (skipWs rest2) with
            | none => none
            | some (v, rest3) =>
              match skipWs rest3 with
              | [] => none
              | d :: rest4 =>
                if d = ',' then
                  match parseMembers f (skipWs rest4) with
                  | none => none
                  | some (kvs, rest6) => some ((k, v) :: kvs, rest6)
                else if d = rbrace then some ([(k, v)], rest4)
                else none
          else none) := rfl

theorem roundtrip_fuel : ∀ f : Nat,
    (∀ (v : Json) (rest : List Char), jm v ≤ f → noDigitHead rest →
      parseValue f (printJson v ++ rest) = some (v, rest)) ∧
    (∀ (xs : List Json) (rest : List Char), xs ≠ [] → jmL xs ≤ f →
      parseElems f (printElemsAll xs ++ (rbrack :: rest)) = some (xs, rest)) ∧
    (∀ (kvs : List (String × Json)) (rest : List Char), kvs ≠ [] → jmM kvs ≤ f →
      parseMembers f (printMembersAll kvs ++ (rbrace :: rest)) = some (kvs, rest)) := by
  intro f
  induction f with
  | zero =>
    refine ⟨?_, ?_, ?_⟩
    · intro v rest hjm _
      have := jm_pos v
      omega
    · intro xs rest hne hjm
      cases xs with
      | nil => exact absurd rfl hne
      | cons v vs => simp [jmL] at hjm
    · intro kvs rest hne hjm
      cases kvs with
      | nil => exact absurd rfl hne
      | cons kv kvs' =>
        obtain ⟨k, v2⟩ := kv
        simp [jmM] at hjm
  | succ f ih =>
    obtain ⟨ihv, ihe, ihm⟩ := ih
    refine ⟨?_, ?_, ?_⟩
    · intro v rest hjm hrest
      cases v with
      | null => exact rfl
      | bool b => cases b <;> exact rfl
      | num n => exact pv_num n f rest hrest
      | str s =>
        show parseValue (f + 1) ((quoteChar :: escapeString s ++ [quoteChar]) ++ rest) = _
        rw [show (quoteChar :: escapeString s ++ [quoteChar]) ++ rest =
          quoteChar :: (escapeString s ++ (quoteChar :: rest)) by simp]
        rw [pv_quote, parseStringBody_printString]
        rfl
      | arr xs =>
        cases xs with
        | nil => exact rfl
        | cons v vs =>
          have hjmL : jmL (v :: vs) ≤ f := by
            simp only [jm] at hjm
            omega
          show parseValue (f + 1)
            ((lbrack :: (printJson v ++ printElemsRest vs ++ [rbrack])) ++ rest) = _
          rw [show (lbrack :: (printJson v ++ printElemsRest vs ++ [rbrack])) ++ rest =
            lbrack :: (printElemsAll (v :: vs) ++ (rbrack :: rest)) by
              simp [printElemsAll]]
          rw [pv_lbrack]
          obtain ⟨c, cs', hpr, hws, hnrk, hnre⟩ := printJson_shape v
          have hshape : printElemsAll (v :: vs) ++ (rbrack :: rest) =
              c :: (cs' ++ (printElemsRest vs ++ (rbrack :: rest))) := by
            simp [printElemsAll, hpr]
          rw [hshape, skipWs_not_ws hws]
          dsimp only []
          rw [if_neg hnrk, ← hshape]
          rw [ihe (v :: vs) rest (by simp) hjmL]
          rfl
      | obj kvs =>
        cases kvs with
        | nil => exact rfl
        | cons kv kvs' =>
          have hjmM : jmM (kv :: kvs') ≤ f := by
            simp only [jm] at hjm
            omega
          obtain ⟨k, v2⟩ := kv
          show parseValue (f + 1)
            ((lbrace :: (printMember (k, v2) ++ printMembersRest kvs' ++ [rbrace])) ++ rest) = _
          rw [show (lbrace :: (printMember (k, v2) ++ printMembersRest kvs' ++ [rbrace])) ++
            rest = lbrace :: (printMembersAll ((k, v2) :: kvs') ++ (rbrace :: rest)) by
              simp [printMembersAll]]
          rw [pv_lbrace]
          have hshape : printMembersAll ((k, v2) :: kvs') ++ (rbrace :: rest) =
              quoteChar :: (escapeString k ++ (quoteChar :: (':' :: ' ' ::
                (printJson v2 ++ (printMembersRest kvs' ++ (rbrace :: rest)))))) := by
            simp [printMembersAll, printMember, printString]
          rw [hshape, skipWs_not_ws (by decide)]
          dsimp only []
          rw [if_neg (by decide), ← hshape]
          rw [ihm ((k, v2) :: kvs') rest (by simp) hjmM]
          rfl
    · intro xs rest hne hjmL
      cases xs with
      | nil => exact absurd rfl hne
      | cons v vs =>
        have hjv : jm v ≤ f := by
          simp only [jmL] at hjmL
          omega
        rw [show printElemsAll (v :: vs) ++ (rbrack :: rest) =
          printJson v ++ (printElemsRest vs ++ (rbrack :: rest)) by
            simp [printElemsAll]]
        rw [pe_step]
        have hnd : noDigitHead (printElemsRest vs ++ (rbrack :: rest)) := by
          cases vs with
          | nil =>
            rw [show printElemsRest ([] : List Json) ++ (rbrack :: rest) = rbrack :: rest by
              simp [printElemsRest]]
            exact noDigitHead_cons (by decide) _
          | cons w ws =>
            rw [show printElemsRest (w :: ws) ++ (rbrack :: rest) =
              ',' :: (' ' :: (printJson w ++ printElemsRest ws ++ (rbrack :: rest))) by
                simp [printElemsRest]]
            exact noDigitHead_cons (by decide) _
        rw [ihv v _ hjv hnd]
        dsimp only []
        cases vs with
        | nil =>
          rw [show printElemsRest ([] : List Json) ++ (rbrack :: rest) = rbrack :: rest by
            simp [printElemsRest]]
          rw [skipWs_not_ws (by decide)]
          dsimp only []
          rw [if_neg (by decide), if_pos rfl]
        | cons w ws =>
          rw [show printElemsRest (w :: ws) ++ (rbrack :: rest) =
            ',' :: (' ' :: (printElemsAll (w :: ws) ++ (rbrack :: rest))) by
              simp [printElemsRest, printElemsAll]]
          rw [skipWs_not_ws (by decide)]
          dsimp only []
          rw [if_pos rfl, skipWs_space]
          obtain ⟨c, cs', hpr, hws, _, _⟩ := printJson_shape w
          have hshape2 : printElemsAll (w :: ws) ++ (rbrack :: rest) =
              c :: (cs' ++ (printElemsRest ws ++ (rbrack :: rest))) := by
            simp [printElemsAll, hpr]
          rw [hshape2, skipWs_not_ws hws, ← hshape2]
          have hjmL2 : jmL (w :: ws) ≤ f := by
            rw [jmL.eq_def] at hjmL
            try dsimp only [] at hjmL
            have hmx := Nat.le_max_right (jm v) (jmL (w :: ws))
            omega
          rw [ihe (w :: ws) rest (by simp) hjmL2]
    · intro kvs rest hne hjmM
      cases kvs with
      | nil => exact absurd rfl hne
      | cons kv kvs' =>
        obtain ⟨k, v2⟩ := kv
        have hjv : jm v2 ≤ f := by
          rw [jmM.eq_def] at hjmM
          try dsimp only [] at hjmM
          have hmx := Nat.le_max_left (jm v2) (jmM kvs')
          omega
        rw [show printMembersAll ((k, v2) :: kvs') ++ (rbrace :: rest) =
          quoteChar :: (escapeString k ++ (quoteChar :: (':' :: (' ' ::
            (printJson v2 ++ (printMembersRest kvs' ++ (rbrace :: rest))))))) by
            simp [printMembersAll, printMember, printString]]
        rw [pm_quote, parseStringBody_printString]
        try dsimp only []
        rw [skipWs_not_ws (by decide)]
        try dsimp only []
        rw [if_pos rfl, skipWs_space]
        have hnd : noDigitHead (printMembersRest kvs' ++ (rbrace :: rest)) := by
          cases kvs' with
          | nil =>
            rw [show printMembersRest ([] : List (String × Json)) ++ (rbrace :: rest) =
              rbrace :: rest by simp [printMembersRest]]
            exact noDigitHead_cons (by decide) _
          | cons kv2 kvs'' =>
            rw [show printMembersRest (kv2 :: kvs'') ++ (rbrace :: rest) =
              ',' :: (' ' :: (printMember kv2 ++ printMembersRest kvs'' ++ (rbrace :: rest))) by
                simp [printMembersRest]]
            exact noDigitHead_cons (by decide) _
        obtain ⟨c, cs', hpr, hws, _, _⟩ := printJson_shape v2
        have hshape3 : printJson v2 ++ (printMembersRest kvs' ++ (rbrace :: rest)) =
            c :: (cs' ++ (printMembersRest kvs' ++ (rbrace :: rest))) := by
          simp [hpr]
        rw [hshape3, skipWs_not_ws hws, ← hshape3]
        rw [ihv v2 _ hjv hnd]
        dsimp only []
        cases kvs' with
        | nil =>
          rw [show printMembersRest ([] : List (String × Json)) ++ (rbrace :: rest) =
            rbrace :: rest by simp [printMembersRest]]
          rw [skipWs_not_ws (by decide)]
          dsimp only []
          rw [if_neg (by decide), if_pos rfl]
        | cons kv2 kvs'' =>
          obtain ⟨k2, v3⟩ := kv2
          rw [show printMembersRest ((k2, v3) :: kvs'') ++ (rbrace :: rest) =
            ',' :: (' ' :: (printMembersAll ((k2, v3) :: kvs'') ++ (rbrace :: rest))) by
              simp [printMembersRest, printMembersAll]]
          rw [skipWs_not_ws (by decide)]
          dsimp only []
          rw [if_pos rfl, skipWs_space]
          have hshape4 : printMembersAll ((k2, v3) :: kvs'') ++ (rbrace :: rest) =
              quoteChar :: (escapeString k2 ++ (quoteChar :: (':' :: (' ' ::
                (printJson v3 ++ (printMembersRest kvs'' ++ (rbrace :: rest))))))) := by
            simp [printMembersAll, printMember, printString]
          rw [hshape4, skipWs_not_ws (by decide), ← hshape4]
          have hjmM2 : jmM ((k2, v3) :: kvs'') ≤ f := by
            rw [jmM.eq_def] at hjmM
            try dsimp only [] at hjmM
            have hmx := Nat.le_max_right (jm v2) (jmM ((k2, v3) :: kvs''))
            omega
          rw [ihm ((k2, v3) :: kvs'') rest (by simp) hjmM2]

theorem printJson_ne_nil (v : Json) : printJson v ≠ [] := by
  obtain ⟨c, cs, hpr, _, _, _⟩ := printJson_shape v
  rw [hpr]
  simp

theorem jm_le_len_aux : ∀ n : Nat,
    (∀ v : Json, sizeOf v ≤ n → jm v ≤ (printJson v).length) ∧
    (∀ xs : List Json, sizeOf xs ≤ n → jmL xs ≤ (printElemsAll xs).length + 1) ∧
    (∀ kvs : List (String × Json), sizeOf kvs ≤ n →
      jmM kvs ≤ (printMembersAll kvs).length + 1) := by
  intro n
  induction n using Nat.strong_induction_on with
  | _ n ihn =>
    refine ⟨?_, ?_, ?_⟩
    · intro v hsz
      cases v with
      | null => simp [jm, printJson]
      | bool b => cases b <;> simp [jm, printJson]
      | num m =>
        have := printJson_ne_nil (Json.num m)
        have hlen : 1 ≤ (printJson (Json.num m)).length := by
          cases hc : printJson (Json.num m) with
          | nil => exact absurd hc this
          | cons c cs => simp
        rw [show jm (Json.num m) = 1 from rfl]
        omega
      | str s =>
        rw [show jm (Json.str s) = 1 from rfl]
        show 1 ≤ (quoteChar :: escapeString s ++ [quoteChar]).length
        simp
      | arr xs =>
        have hszxs : sizeOf xs ≤ n - 1 := by
          have : sizeOf (Json.arr xs) = 1 + sizeOf xs := by simp
          omega
        have hn1 : n - 1 < n := by
          have hpos : 1 ≤ sizeOf (Json.arr xs) := by
            have : sizeOf (Json.arr xs) = 1 + sizeOf xs := by simp
            omega
          omega
        have hL := (ihn (n - 1) hn1).2.1 xs hszxs
        rw [show jm (Json.arr xs) = 1 + jmL xs by rw [jm]]
        cases xs with
        | nil => simp [jmL, printJson]
        | cons v vs =>
          rw [show printJson (Json.arr (v :: vs)) =
            lbrack :: (printElemsAll (v :: vs) ++ [rbrack]) by
              simp [printJson, printElemsAll]]
          simp only [List.length_cons, List.length_append, List.length_singleton]
          omega
      | obj kvs =>
        have hszkvs : sizeOf kvs ≤ n - 1 := by
          have : sizeOf (Json.obj kvs) = 1 + sizeOf kvs := by simp
          omega
        have hn1 : n - 1 < n := by
          have hpos : 1 ≤ sizeOf (Json.obj kvs) := by
            have : sizeOf (Json.obj kvs) = 1 + sizeOf kvs := by simp
            omega
          omega
        have hM := (ihn (n - 1) hn1).2.2 kvs hszkvs
        rw [show jm (Json.obj kvs) = 1 + jmM kvs by rw [jm]]
        cases kvs with
        | nil => simp [jmM, printJson]
        | cons kv kvs' =>
          rw [show printJson (Json.obj (kv :: kvs')) =
            lbrace :: (printMembersAll (kv :: kvs') ++ [rbrace]) by
              cases kv
              simp [printJson, printMembersAll]]
          simp only [List.length_cons, List.length_append, List.length_singleton]
          omega
    · intro xs hsz
      cases xs with
      | nil => simp [jmL, printElemsAll]
      | cons v vs =>
        have hszv : sizeOf v < n := by
          have : sizeOf (v :: vs) = 1 + sizeOf v + sizeOf vs := by simp
          omega
        have hszvs : sizeOf vs < n := by
          have : sizeOf (v :: vs) = 1 + sizeOf v + sizeOf vs := by simp
          omega
        have hv := (ihn (sizeOf v) hszv).1 v (le_refl _)
        have hvs := (ihn (sizeOf vs) hszvs).2.1 vs (le_refl _)
        rw [show jmL (v :: vs) = 1 + max (jm v) (jmL vs) by rw [jmL]]
        rw [show printElemsAll (v :: vs) = printJson v ++ printElemsRest vs from rfl]
        have hlenv : 1 ≤ (printJson v).length := by
          cases hc : printJson v with
          | nil => exact absurd hc (printJson_ne_nil v)
          | cons c cs => simp
        cases vs with
        | nil =>
          simp only [printElemsRest, List.append_nil]
          have : jmL ([] : List Json) = 1 := rfl
          rw [this] at hvs ⊢
          omega
        | cons w ws =>
          rw [show printElemsRest (w :: ws) = ',' :: ' ' :: (printElemsAll (w :: ws)) by
            simp [printElemsRest, printElemsAll]]
          simp only [List.length_append, List.length_cons]
          omega
    · intro kvs hsz
      cases kvs with
      | nil => simp [jmM, printMembersAll]
      | cons kv kvs' =>
        obtain ⟨k, v⟩ := kv
        have hszv : sizeOf v < n := by
          have : sizeOf ((k, v) :: kvs') = 1 + (1 + sizeOf k + sizeOf v) + sizeOf kvs' := by
            simp +arith
          omega
        have hszkvs : sizeOf kvs' < n := by
          have : sizeOf ((k, v) :: kvs') = 1 + (1 + sizeOf k + sizeOf v) + sizeOf kvs' := by
            simp +arith
          omega
        have hv := (ihn (sizeOf v) hszv).1 v (le_refl _)
        have hkvs := (ihn (sizeOf kvs') hszkvs).2.2 kvs' (le_refl _)
        rw [show jmM ((k, v) :: kvs') = 1 + max (jm v) (jmM kvs') by rw [jmM]]
        rw [show printMembersAll ((k, v) :: kvs') = printMember (k, v) ++ printMembersRest kvs'
          from rfl]
        rw [show printMember (k, v) = printString k ++ ':' :: ' ' :: printJson v from rfl]
        have hlenv : 1 ≤ (printJson v).length := by
          cases hc : printJson v with
          | nil => exact absurd hc (printJson_ne_nil v)
          | cons c cs => simp
        cases kvs' with
        | nil =>
          simp only [printMembersRest, List.append_nil]
          have : jmM ([] : List (String × Json)) = 1 := rfl
          rw [this] at hkvs ⊢
          simp only [List.length_append, List.length_cons]
          omega
        | cons kv2 kvs'' =>
          rw [show printMembersRest (kv2 :: kvs'') = ',' :: ' ' :: (printMembersAll (kv2 :: kvs''))
            by simp [printMembersRest, printMembersAll]]
          simp only [List.length_append, List.length_cons]
          omega

theorem jm_le_len (v : Json) : jm v ≤ (printJson v).length :=
  (jm_le_len_aux (sizeOf v)).1 v (le_refl _)

theorem loadsL_print (v : Json) : loadsL (printJson v) = some v := by
  unfold loadsL
  obtain ⟨c, cs, hpr, hws, _, _⟩ := printJson_shape v
  rw [show skipWs (printJson v) = printJson v by rw [hpr]; exact skipWs_not_ws hws cs]
  have hfuel : jm v ≤ (printJson v).length + 1 := le_trans (jm_le_len v) (by omega)
  have h := (roundtrip_fuel ((printJson v).length + 1)).1 v [] hfuel noDigitHead_nil
  rw [List.append_nil] at h
  rw [h]
  rfl

/-! ## C4: the extractor round-trips serialized objects -/

/-- The fence stripper leaves any backtick-free list unchanged. -/
theorem stripFencesF_id : ∀ (f : Nat) (cs : List Char), bq ∉ cs → stripFencesF f cs = cs := by
  intro f
  induction f with
  | zero => intro cs _; rfl
  | succ f ih =>
    intro cs h
    cases cs with
    | nil => rfl
    | cons c rest =>
      have hfence : fenceAt (c :: rest) = false := by
        by_cases hf : (c :: rest).take 3 = [bq, bq, bq]
        · exfalso
          apply h
          have hc : c = bq := by
            rw [List.take_succ_cons] at hf
            exact (List.cons.inj hf).1
          rw [hc]
          exact List.mem_cons_self _ _
        · unfold fenceAt
          exact decide_eq_false hf
      rw [stripFencesF, hfence]
      simp only [Bool.false_eq_true, if_false]
      rw [ih rest (fun hm => h (List.mem_cons_of_mem c hm))]

theorem stripFences_id (cs : List Char) (h : bq ∉ cs) : stripFences cs = cs :=
  stripFencesF_id cs.length cs h

/-- The printed form of an object starts with `\x7b` and ends with `\x7d`. -/
theorem printObj_shape (kvs : List (String × Json)) :
    ∃ mid, printJson (Json.obj kvs) = lbrace :: (mid ++ [rbrace]) := by
  cases kvs with
  | nil => exact ⟨[], rfl⟩
  | cons kv kvs' => exact ⟨printMember kv ++ printMembersRest kvs', rfl⟩

/-- Core of the round-trip claim, stated on the character list of the
input: with noise on both sides and no backtick in the serialized
object, `_extract_json` recovers exactly the object. -/
theorem extractJson_noise (kvs : List (String × Json))
    (h : bq ∉ printJson (Json.obj kvs)) :
    extractJson ⟨"noise ".data ++ (printJson (Json.obj kvs) ++ " noise".data)⟩
      = some (Json.obj kvs) := by
  obtain ⟨mid, hmid⟩ := printObj_shape kvs
  set m := printJson (Json.obj kvs) with hmdef
  unfold extractJson
  dsimp only []
  have hbq : bq ∉ ("noise ".data ++ (m ++ " noise".data)) := by
    intro hmem
    rcases List.mem_append.1 hmem with h1 | h2
    · exact absurd h1 (by decide)
    · rcases List.mem_append.1 h2 with h3 | h4
      · exact h h3
      · exact absurd h4 (by decide)
  rw [stripFences_id _ hbq]
  have hstrip : pyStrip ("noise ".data ++ (m ++ " noise".data))
      = "noise ".data ++ (m ++ " noise".data) := by
    apply pyStrip_fix
    · intro c hc
      rw [show "noise ".data = ['n', 'o', 'i', 's', 'e', ' '] from rfl] at hc
      simp only [List.cons_append, List.head?_cons, Option.some.injEq] at hc
      rw [hc.symm]
      decide
    · intro c hc
      rw [List.reverse_append, List.reverse_append,
        show " noise".data.reverse = ['e', 's', 'i', 'o', 'n', ' '] from rfl] at hc
      simp only [List.append_assoc, List.cons_append, List.head?_cons,
        Option.some.injEq] at hc
      rw [hc.symm]
      decide
  rw [hstrip]
  have hfindL : findIdxFrom lbrace ("noise ".data ++ (m ++ " noise".data)) = some 6 := by
    rw [findIdxFrom_append, findIdxFrom_eq_none lbrace "noise ".data (by decide)]
    rw [hmid]
    simp [findIdxFrom]
  have hfindR : findIdxFrom rbrace (("noise ".data ++ (m ++ " noise".data)).reverse)
      = some 6 := by
    rw [List.reverse_append, List.reverse_append, List.append_assoc]
    rw [show " noise".data.reverse = ['e', 's', 'i', 'o', 'n', ' '] from rfl]
    rw [findIdxFrom_append, findIdxFrom_eq_none rbrace ['e', 's', 'i', 'o', 'n', ' '] (by decide)]
    rw [hmid]
    rw [show (lbrace :: (mid ++ [rbrace])).reverse = rbrace :: (mid.reverse ++ [lbrace]) from by
      simp]
    rw [show (rbrace :: (mid.reverse ++ [lbrace])) ++ "noise ".data.reverse
        = rbrace :: ((mid.reverse ++ [lbrace]) ++ "noise ".data.reverse) from rfl]
    simp [findIdxFrom]
  have hlenu : ("noise ".data ++ (m ++ " noise".data)).length = mid.length + 14 := by
    simp only [List.length_append]
    rw [show ("noise ".data).length = 6 from rfl, show (" noise".data).length = 6 from rfl,
      hmid]
    simp only [List.length_cons, List.length_append, List.length_nil]
    omega
  have hpf : pyFind lbrace ("noise ".data ++ (m ++ " noise".data)) = (6 : Int) := by
    unfold pyFind
    rw [hfindL]
    rfl
  have hpr : pyRfind rbrace ("noise ".data ++ (m ++ " noise".data))
      = ((mid.length : Int) + 7) := by
    unfold pyRfind
    rw [hfindR, hlenu]
    simp only []
    push_cast
    ring
  rw [hpf, hpr]
  have hcond : ¬(((6 : Int) = -1) ∨ (((mid.length : Int) + 7) = -1) ∨
      (((mid.length : Int) + 7) < 6)) := by
    omega
  rw [if_neg hcond]
  rw [show ((6 : Int)).toNat = 6 from rfl]
  rw [show ((mid.length : Int) + 7).toNat = mid.length + 7 from by omega]
  rw [show mid.length + 7 + 1 - 6 = mid.length + 2 from by omega]
  have hdrop : (("noise ".data ++ (m ++ " noise".data))).drop 6 = m ++ " noise".data := by
    have h0 := drop_append_len "noise ".data (m ++ " noise".data) 0
    rw [show ("noise ".data).length + 0 = 6 from rfl] at h0
    rw [h0, List.drop_zero]
  rw [hdrop]
  have htake : (m ++ " noise".data).take (mid.length + 2) = m := by
    have hml : m.length = mid.length + 2 := by
      rw [hmid]
      simp only [List.length_cons, List.length_append, List.length_nil]
      try omega
    rw [show mid.length + 2 = m.length from hml.symm]
    rw [take_append_le m (" noise".data) (le_refl _), List.take_length]
  rw [htake]
  exact loadsL_print (Json.obj kvs)

/-- Concatenating the noise prefix and suffix on the string side
matches the list-level decomposition. -/
theorem string_noise_mk (s : String) :
    ("noise " ++ s ++ " noise") = (⟨"noise ".data ++ (s.data ++ " noise".data)⟩ : String) := by
  show (⟨("noise ".data ++ s.data) ++ " noise".data⟩ : String) = _
  rw [List.append_assoc]

/-- C4: for every JSON object whose serialization contains no backtick
character, `_extract_json` applied to `noise ` + serialize(O) + ` noise`
succeeds and recovers an object equal to O. (Serializations containing
backticks can be corrupted by the code-fence stripper, see the
counterexample.) -/
theorem c4_extract_roundtrip (kvs : List (String × Json))
    (h : bq ∉ (serializeJson (Json.obj kvs)).data) :
    extractJson ("noise " ++ serializeJson (Json.obj kvs) ++ " noise")
      = some (Json.obj kvs) := by
  rw [string_noise_mk]
  exact extractJson_noise kvs h

/-- Projection used to tell two object values apart. -/
def firstStrVal : Json → String
  | .obj ((_, Json.str s) :: _) => s
  | _ => ""

/-- Counterexample to the unconditional round-trip claim: the object
with single member `a` mapped to the string of three backticks
serializes to a string containing a code fence, which the extractor
strips, so extraction yields a different object. -/
theorem c4_counterexample :
    extractJson ("noise " ++ serializeJson (Json.obj [("a", Json.str ⟨[bq, bq, bq]⟩)]) ++
        " noise") = some (Json.obj [("a", Json.str "")]) ∧
      Json.obj [("a", Json.str "")] ≠ Json.obj [("a", Json.str ⟨[bq, bq, bq]⟩)] := by
  refine ⟨rfl, fun heq => absurd (congrArg firstStrVal heq) (by decide)⟩

/-- Witness for `c4_extract_roundtrip` on the backtick-free object
with single member `a` mapped to the number 1. -/
theorem c4_extract_roundtrip_witness :
    bq ∉ (serializeJson (Json.obj [("a", Json.num 1)])).data ∧
      extractJson ("noise " ++ serializeJson (Json.obj [("a", Json.num 1)]) ++ " noise")
        = some (Json.obj [("a", Json.num 1)]) :=
  ⟨by decide, c4_extract_roundtrip [("a", Json.num 1)] (by decide)⟩
